import Mathlib

/-!
# STEGOSIGHT core — shallow embedding and verification

This file models the core data transforms of the STEGOSIGHT repository
(steganographic embed/extract codecs, the crypto blob layout, the adaptive
method selector and the risk scorer) as executable Lean definitions, and
proves or refutes the frozen specification claims against them.

Modelling conventions:
* byte strings and pixel buffers are `List Nat` with values `< 256`
  (images are flattened row-major exactly as `np.array(img).reshape(-1)`);
* PCM audio samples are `List Int` (int16 may be negative; Python's `& 1`
  on a negative int equals `Int.emod · 2`);
* fallible operations return `Except StegoError α`; the error constructors
  follow the specification's error taxonomy (the Python source raises
  `ValueError` at each of these sites, the constructor records which
  failure condition fired);
* sources of randomness (`random.choice([-1, 1])` in LSB matching,
  `os.urandom` salts/nonces) are passed in as explicit parameters;
* the external AES-GCM / KDF primitives from the `cryptography` package are
  parameters of the crypto functions, constrained by hypotheses only where
  a claim needs their documented behaviour.
-/

/-- Error taxonomy of the specification; each constructor marks one failure
condition of the source (which raises `ValueError` at these sites). -/
inductive StegoError where
  | capacityExceeded
  | corruptPayload
  | checksumMismatch
  | unsupportedCarrier
  | authenticationError
  | invalidInput
  deriving DecidableEq, Repr

/-! ## Shared bitstream framing helpers

The Python modules share `_bytes_to_bits` (`format(byte, '08b')` join) and
`_bits_to_bytes`; `lsb.py` inlines its own variants.  Bits are MSB-first. -/

/-- `format(byte, '08b')`: the 8 bits of a byte, most significant first. -/
def byteToBits (b : Nat) : List Nat :=
  [b / 128 % 2, b / 64 % 2, b / 32 % 2, b / 16 % 2,
   b / 8 % 2, b / 4 % 2, b / 2 % 2, b % 2]

/-- `_bytes_to_bits`: concatenation of each byte's 8 bits. -/
def bytesToBits (bs : List Nat) : List Nat :=
  (bs.map byteToBits).flatten

/-- `int(bits, 2)`: interpret a bit list (MSB first) as a number. -/
def bitsToNat (bits : List Nat) : Nat :=
  bits.foldl (fun a b => 2 * a + b) 0

/-- `len(x).to_bytes(4, byteorder='big')`: 4-byte big-endian length header. -/
def natToBE4 (n : Nat) : List Nat :=
  [n / 2 ^ 24 % 256, n / 2 ^ 16 % 256, n / 2 ^ 8 % 256, n % 256]

/-- `_bits_to_bytes` (pvd.py / audio.py / jpeg_dct.py): 8-bit chunks, the
final partial chunk right-padded with `'0'` (`ljust(8, "0")`). -/
def bitsToBytesPad : List Nat → List Nat
  | b0 :: b1 :: b2 :: b3 :: b4 :: b5 :: b6 :: b7 :: rest =>
      bitsToNat [b0, b1, b2, b3, b4, b5, b6, b7] :: bitsToBytesPad rest
  | [] => []
  | shortChunk => [bitsToNat (shortChunk ++ List.replicate (8 - shortChunk.length) 0)]

/-- The byte-assembly loop of `lsb.py:extract`: 8-bit chunks, a final
partial chunk is dropped (`if len(byte) == 8`). -/
def bitsToBytesExact : List Nat → List Nat
  | b0 :: b1 :: b2 :: b3 :: b4 :: b5 :: b6 :: b7 :: rest =>
      bitsToNat [b0, b1, b2, b3, b4, b5, b6, b7] :: bitsToBytesExact rest
  | _ => []

/-! ### Framing lemmas -/

theorem byteToBits_length (b : Nat) : (byteToBits b).length = 8 := rfl

theorem bytesToBits_length (bs : List Nat) :
    (bytesToBits bs).length = 8 * bs.length := by
  induction bs with
  | nil => rfl
  | cons b t ih =>
      simp only [bytesToBits, List.map_cons, List.flatten_cons, List.length_append,
        byteToBits_length, List.length_cons] at ih ⊢
      omega

theorem bytesToBits_cons (b : Nat) (bs : List Nat) :
    bytesToBits (b :: bs) = byteToBits b ++ bytesToBits bs := by
  simp [bytesToBits]

theorem bytesToBits_append (xs ys : List Nat) :
    bytesToBits (xs ++ ys) = bytesToBits xs ++ bytesToBits ys := by
  simp [bytesToBits]

theorem bitsToNat_append (xs ys : List Nat) :
    bitsToNat (xs ++ ys) = bitsToNat xs * 2 ^ ys.length + bitsToNat ys := by
  induction ys using List.reverseRecOn with
  | nil => simp [bitsToNat]
  | append_singleton t y ih =>
      rw [← List.append_assoc]
      simp only [bitsToNat, List.foldl_append, List.foldl_cons, List.foldl_nil] at ih ⊢
      rw [ih]
      simp [List.length_append, pow_succ]
      ring

theorem bitsToNat_byteToBits {b : Nat} (hb : b < 256) :
    bitsToNat (byteToBits b) = b := by
  simp only [bitsToNat, byteToBits, List.foldl_cons, List.foldl_nil]
  omega

theorem byteToBits_lt (b : Nat) : ∀ x ∈ byteToBits b, x < 2 := by
  simp only [byteToBits, List.mem_cons, List.not_mem_nil]
  intro x hx
  rcases hx with h | h | h | h | h | h | h | h | h <;> simp_all <;> omega

theorem bitsToNat_lt {bits : List Nat} (h : ∀ x ∈ bits, x < 2) :
    bitsToNat bits < 2 ^ bits.length := by
  induction bits using List.reverseRecOn with
  | nil => simp [bitsToNat]
  | append_singleton t y ih =>
      rw [bitsToNat_append]
      have ht : ∀ x ∈ t, x < 2 := fun x hx => h x (by simp [hx])
      have hy : y < 2 := h y (by simp)
      have := ih ht
      simp only [bitsToNat, List.foldl_cons, List.foldl_nil, List.length_append,
        List.length_cons, List.length_nil, pow_succ]
      have : bitsToNat t ≤ 2 ^ t.length - 1 := by omega
      simp only [bitsToNat] at this ⊢
      have h2 : 1 ≤ 2 ^ t.length := Nat.one_le_two_pow
      omega

theorem bitsToBytesExact_bytesToBits {bs : List Nat} (h : ∀ b ∈ bs, b < 256) :
    bitsToBytesExact (bytesToBits bs) = bs := by
  induction bs with
  | nil => rfl
  | cons b t ih =>
      rw [bytesToBits_cons]
      have hb := bitsToNat_byteToBits (h b (by simp))
      simp only [byteToBits] at hb ⊢
      simp only [List.cons_append, List.nil_append, bitsToBytesExact, List.append_nil,
        List.nil_append, List.append_eq]
      rw [hb]
      exact congrArg _ (ih (fun x hx => h x (by simp [hx])))

theorem bitsToBytesPad_bytesToBits {bs : List Nat} (h : ∀ b ∈ bs, b < 256) :
    bitsToBytesPad (bytesToBits bs) = bs := by
  induction bs with
  | nil => rfl
  | cons b t ih =>
      rw [bytesToBits_cons]
      have hb := bitsToNat_byteToBits (h b (by simp))
      simp only [byteToBits] at hb ⊢
      simp only [List.cons_append, List.nil_append, bitsToBytesPad, List.append_eq,
        List.nil_append]
      rw [hb]
      exact congrArg _ (ih (fun x hx => h x (by simp [hx])))

theorem bytesToBits_natToBE4_decode {n : Nat} (h : n < 2 ^ 32) :
    bitsToNat (bytesToBits (natToBE4 n)) = n := by
  simp only [natToBE4, bytesToBits, List.map_cons, List.map_nil, List.flatten_cons,
    List.flatten_nil, List.append_nil]
  rw [bitsToNat_append, bitsToNat_append, bitsToNat_append]
  rw [bitsToNat_byteToBits (Nat.mod_lt _ (by norm_num)),
      bitsToNat_byteToBits (Nat.mod_lt _ (by norm_num)),
      bitsToNat_byteToBits (Nat.mod_lt _ (by norm_num)),
      bitsToNat_byteToBits (Nat.mod_lt _ (by norm_num))]
  simp only [List.length_append, bytesToBits_length, byteToBits_length]
  norm_num
  omega

theorem natToBE4_lt (n : Nat) : ∀ b ∈ natToBE4 n, b < 256 := by
  simp only [natToBE4, List.mem_cons, List.not_mem_nil]
  intro b hb
  rcases hb with h | h | h | h | h <;> simp_all <;> omega

theorem bytesToBits_bits_lt (bs : List Nat) : ∀ x ∈ bytesToBits bs, x < 2 := by
  intro x hx
  simp only [bytesToBits, List.mem_flatten, List.mem_map] at hx
  obtain ⟨l, ⟨b, _, rfl⟩, hxl⟩ := hx
  exact byteToBits_lt b x hxl

/-! ## LSB Matching (`src/steganography/lsb.py`)

The image is the flattened row-major `uint8` array of an RGB picture of
shape `height × width × channels`; `pixels[y, x, c]` lives at flat index
`y * width * channels + x * channels + c`.  Only the `sequential` traversal
is modelled here: the `random` ordering shuffles with Python's Mersenne
Twister (`random.seed(42)`) and the `adaptive` ordering sorts by an
`np.gradient` edge strength, neither of which is a transform of this
repository's own making.  The `random.choice([-1, 1])` draws of LSB
matching are supplied as the explicit stream `rnd` (`true` means `+1`). -/

/-- `_generate_sequential_positions`: `(y, x, channel)` triples for the
first `numBits` bit positions in raster order; indices whose row falls
outside the image are silently dropped (`if y < height`). -/
def genSequentialPositions (height width channels numBits : Nat) :
    List (Nat × Nat × Nat) :=
  (List.range numBits).filterMap fun i =>
    let pixelIndex := i / channels
    let channel := i % channels
    let y := pixelIndex / width
    let x := pixelIndex % width
    if y < height then some (y, x, channel) else none

/-- Row-major flat index of `pixels[y, x, c]`. -/
def flatIdx (width channels : Nat) (p : Nat × Nat × Nat) : Nat :=
  p.1 * width * channels + p.2.1 * channels + p.2.2

/-- One LSB-matching write (lsb.py lines 93–103): keep the value when its
LSB already equals the bit, clamp at 255/0, otherwise move by
`random.choice([-1, 1])`. -/
def lsbWritePixel (v bit : Nat) (rnd : Bool) : Nat :=
  if v % 2 = bit then v
  else if v = 255 then 254
  else if v = 0 then 1
  else if rnd then v + 1 else v - 1

/-- The embedding loop of `LSBSteganography.embed`: walk the positions,
writing one payload bit per position into a copy of the pixel array.
`k` counts the `random.choice` draws consumed so far. -/
def lsbEmbedLoop (width channels : Nat) (flat : List Nat)
    (pairs : List ((Nat × Nat × Nat) × Nat)) (rnd : Nat → Bool) (k : Nat) :
    List Nat :=
  match pairs with
  | [] => flat
  | (pos, bit) :: rest =>
      let idx := flatIdx width channels pos
      let v := flat.getD idx 0
      lsbEmbedLoop width channels (flat.set idx (lsbWritePixel v bit (rnd k)))
        rest rnd (k + 1)

/-- `LSBSteganography.embed` (sequential mode) on the flattened pixels.
The capacity check `data_length > max_bytes - 4` (a Python `int`
comparison, hence over `Int`) raises before anything is written. -/
def lsbEmbed (height width channels bitsPerChannel : Nat) (flat : List Nat)
    (secret : List Nat) (rnd : Nat → Bool) : Except StegoError (List Nat) :=
  let maxBytes := height * width * channels * bitsPerChannel / 8
  if (secret.length : Int) > (maxBytes : Int) - 4 then
    .error .capacityExceeded
  else
    let fullData := natToBE4 secret.length ++ secret
    let binaryData := bytesToBits fullData
    let positions :=
      genSequentialPositions height width channels binaryData.length
    .ok (lsbEmbedLoop width channels flat (positions.zip binaryData) rnd 0)

/-- The data-bit collection loop of `LSBSteganography.extract`: enumerate
the positions, `continue` over the first 32 (the length header), `break`
once `data_length * 8` bits have been gathered. -/
def lsbCollectBits (flat : List Nat) (width channels : Nat)
    (positions : List (Nat × Nat × Nat)) (i need : Nat) (acc : List Nat) :
    List Nat :=
  match positions with
  | [] => acc
  | pos :: rest =>
      if i < 32 then lsbCollectBits flat width channels rest (i + 1) need acc
      else if need ≤ acc.length then acc
      else lsbCollectBits flat width channels rest (i + 1) need
             (acc ++ [flat.getD (flatIdx width channels pos) 0 % 2])

/-- `LSBSteganography.extract` (sequential mode): read the 32-bit length
from sequential positions, reject `data_length <= 0` or `> 10_000_000`,
then gather the payload bits and keep only whole bytes. -/
def lsbExtract (height width channels : Nat) (flat : List Nat) :
    Except StegoError (List Nat) :=
  let lengthPositions := genSequentialPositions height width channels 32
  let lengthBits :=
    lengthPositions.map fun pos => flat.getD (flatIdx width channels pos) 0 % 2
  let dataLength := bitsToNat lengthBits
  if dataLength = 0 ∨ dataLength > 10000000 then .error .corruptPayload
  else
    let totalBits := 32 + dataLength * 8
    let positions := genSequentialPositions height width channels totalBits
    let binaryData :=
      lsbCollectBits flat width channels positions 0 (dataLength * 8) []
    .ok (bitsToBytesExact binaryData)

/-- `LSBSteganography.calculate_capacity`: `(h*w*3*bits)//8 - 4`
(a Python `int`, possibly negative). -/
def lsbCalculateCapacity (height width bitsPerChannel : Nat) : Int :=
  ((height * width * 3 * bitsPerChannel / 8 : Nat) : Int) - 4

/-! ### LSB lemmas -/

theorem filterMap_eq_map_of_mem {α β : Type} {f : α → Option β} {g : α → β}
    {l : List α} (h : ∀ a ∈ l, f a = some (g a)) : l.filterMap f = l.map g := by
  induction l with
  | nil => rfl
  | cons a t ih =>
      rw [List.filterMap_cons, h a (by simp), List.map_cons,
        ih (fun x hx => h x (by simp [hx]))]

theorem flatIdx_unflatten (w c i : Nat) :
    flatIdx w c (i / c / w, i / c % w, i % c) = i := by
  have h1 : w * (i / c / w) + i / c % w = i / c := Nat.div_add_mod _ _
  have h2 : c * (i / c) + i % c = i := Nat.div_add_mod _ _
  simp only [flatIdx]
  nlinarith [h1, h2]

theorem genSequentialPositions_eq {h w c n : Nat} (hw : 0 < w) (hc : 0 < c)
    (hn : n ≤ h * w * c) :
    genSequentialPositions h w c n =
      (List.range n).map (fun i => (i / c / w, i / c % w, i % c)) := by
  apply filterMap_eq_map_of_mem
  intro i hi
  have hi' : i < n := List.mem_range.mp hi
  have : i / c / w < h := by
    rw [Nat.div_lt_iff_lt_mul hw, Nat.div_lt_iff_lt_mul hc]
    calc i < n := hi'
    _ ≤ h * w * c := hn
    _ = h * (w * c) := by ring
    _ = h * w * c := by ring
  simp only [this, if_pos]

theorem getD_set_ne {l : List Nat} {i j : Nat} (v d : Nat) (hij : i ≠ j) :
    (l.set i v).getD j d = l.getD j d := by
  simp [List.getD_eq_getElem?_getD, List.getElem?_set_ne hij]

theorem getD_set_self {l : List Nat} {i : Nat} (v d : Nat) (hi : i < l.length) :
    (l.set i v).getD i d = v := by
  simp [List.getD_eq_getElem?_getD, List.getElem?_set_self, hi]

theorem lsbWritePixel_mod {v bit : Nat} (rnd : Bool) (hb : bit < 2) :
    lsbWritePixel v bit rnd % 2 = bit := by
  unfold lsbWritePixel
  split_ifs <;> omega

theorem lsbWritePixel_lt {v : Nat} (bit : Nat) (rnd : Bool) (hv : v < 256) :
    lsbWritePixel v bit rnd < 256 := by
  unfold lsbWritePixel
  split_ifs <;> omega

theorem lsbEmbedLoop_length (w c : Nat) (rnd : Nat → Bool) :
    ∀ (pairs : List ((Nat × Nat × Nat) × Nat)) (flat : List Nat) (k : Nat),
    (lsbEmbedLoop w c flat pairs rnd k).length = flat.length := by
  intro pairs
  induction pairs with
  | nil => intro flat k; rfl
  | cons p rest ih =>
      intro flat k
      obtain ⟨pos, bit⟩ := p
      rw [lsbEmbedLoop, ih, List.length_set]

theorem lsbEmbedLoop_getD (w c : Nat) (rnd : Nat → Bool) :
    ∀ (pairs : List ((Nat × Nat × Nat) × Nat)) (flat : List Nat) (a k : Nat),
    pairs.map (fun p => flatIdx w c p.1) = List.range' a pairs.length →
    a + pairs.length ≤ flat.length → ∀ j : Nat,
    (lsbEmbedLoop w c flat pairs rnd k).getD j 0 =
      if a ≤ j ∧ j < a + pairs.length then
        lsbWritePixel (flat.getD j 0) ((pairs.getD (j - a) default).2)
          (rnd (k + (j - a)))
      else flat.getD j 0 := by
  intro pairs
  induction pairs with
  | nil =>
      intro flat a k _ _ j
      rw [if_neg (by simp)]
      rfl
  | cons p rest ih =>
      intro flat a k hidx hlen j
      obtain ⟨pos, bit⟩ := p
      simp only [List.map_cons, List.length_cons] at hidx
      rw [List.range'_succ] at hidx
      obtain ⟨hpos, hrest⟩ := List.cons_eq_cons.mp hidx
      simp only [List.length_cons] at hlen
      simp only [lsbEmbedLoop]
      rw [hpos]
      have hlen' : a + 1 + rest.length ≤
          (flat.set a (lsbWritePixel (flat.getD a 0) bit (rnd k))).length := by
        rw [List.length_set]; omega
      rw [ih _ (a + 1) (k + 1) hrest hlen' j]
      simp only [List.length_cons]
      by_cases hj1 : a + 1 ≤ j ∧ j < a + 1 + rest.length
      · rw [if_pos hj1, if_pos (by omega)]
        rw [getD_set_ne _ _ (by omega)]
        rw [show j - a = (j - (a + 1)) + 1 by omega]
        simp only [List.getD_cons_succ]
        rw [show k + 1 + (j - (a + 1)) = k + (j - (a + 1) + 1) by omega]
      · rw [if_neg hj1]
        by_cases hj2 : j = a
        · subst hj2
          rw [if_pos (by omega)]
          rw [getD_set_self _ _ (by omega)]
          simp
        · rw [if_neg (by omega), getD_set_ne _ _ (by omega)]

theorem range_map_getD {α : Type} (l : List α) (d : α) :
    (List.range l.length).map (fun i => l.getD i d) = l := by
  apply List.ext_getElem
  · simp
  · intro i h1 h2
    simp only [List.getElem_map, List.getElem_range]
    rw [List.getD_eq_getElem _ _ h2]

theorem lsbCollectBits_eq (flat : List Nat) (w c need : Nat) :
    ∀ (positions : List (Nat × Nat × Nat)) (i : Nat) (acc : List Nat),
    lsbCollectBits flat w c positions i need acc =
      acc ++ ((positions.drop (32 - i)).map
        (fun pos => flat.getD (flatIdx w c pos) 0 % 2)).take (need - acc.length) := by
  intro positions
  induction positions with
  | nil => intro i acc; simp [lsbCollectBits]
  | cons pos rest ih =>
      intro i acc
      rw [lsbCollectBits]
      by_cases hi : i < 32
      · rw [if_pos hi, ih]
        have : 32 - i = (32 - (i + 1)) + 1 := by omega
        rw [this, List.drop_succ_cons]
      · rw [if_neg hi]
        have h0 : 32 - i = 0 := by omega
        by_cases hacc : need ≤ acc.length
        · rw [if_pos hacc, h0, List.drop_zero]
          rw [show need - acc.length = 0 by omega]
          simp
        · rw [if_neg hacc, ih, h0, List.drop_zero]
          have h1 : 32 - (i + 1) = 0 := by omega
          rw [h1, List.drop_zero, List.map_cons]
          rw [show need - acc.length = (need - (acc.length + 1)) + 1 by omega]
          simp [List.take_succ_cons, List.length_append]


theorem lsb_sequential_roundtrip (h w c : Nat) (flat secret : List Nat)
    (rnd : Nat → Bool) (hw : 0 < w) (hc : 0 < c)
    (hflat : flat.length = h * w * c)
    (hbytes : ∀ b ∈ secret, b < 256)
    (hpos : 0 < secret.length) (hmax : secret.length ≤ 10000000)
    (hcap : 8 * (secret.length + 4) ≤ h * w * c) :
    (lsbEmbed h w c 1 flat secret rnd).bind (lsbExtract h w c) = .ok secret := by
  have hlen32 : secret.length < 2 ^ 32 := by omega
  have hbinlen : (bytesToBits (natToBE4 secret.length ++ secret)).length
      = 8 * (secret.length + 4) := by
    rw [bytesToBits_length]
    simp only [List.length_append, natToBE4, List.length_cons, List.length_nil]
    omega
  have hbinlt := bytesToBits_bits_lt (natToBE4 secret.length ++ secret)
  have hguard :
      ¬ ((secret.length : Int) > ((h * w * c * 1 / 8 : Nat) : Int) - 4) := by
    have h4 : secret.length + 4 ≤ h * w * c * 1 / 8 := by
      rw [Nat.mul_one, Nat.le_div_iff_mul_le (by norm_num)]
      omega
    have h4i : ((secret.length + 4 : Nat) : Int) ≤ ((h * w * c * 1 / 8 : Nat) : Int) :=
      Int.ofNat_le.mpr h4
    push_cast at h4i
    omega
  simp only [lsbEmbed]
  rw [if_neg hguard]
  simp only [Except.bind]
  have hpositions : genSequentialPositions h w c
        (bytesToBits (natToBE4 secret.length ++ secret)).length
      = (List.range (8 * (secret.length + 4))).map
          (fun i => (i / c / w, i / c % w, i % c)) := by
    rw [hbinlen]
    exact genSequentialPositions_eq hw hc hcap
  have hposlen : (genSequentialPositions h w c
      (bytesToBits (natToBE4 secret.length ++ secret)).length).length
      = 8 * (secret.length + 4) := by
    rw [hpositions, List.length_map, List.length_range]
  have hziplen : ((genSequentialPositions h w c
        (bytesToBits (natToBE4 secret.length ++ secret)).length).zip
        (bytesToBits (natToBE4 secret.length ++ secret))).length
      = 8 * (secret.length + 4) := by
    rw [List.length_zip, hposlen, hbinlen]
    omega
  have hmapfst : ((genSequentialPositions h w c
        (bytesToBits (natToBE4 secret.length ++ secret)).length).zip
        (bytesToBits (natToBE4 secret.length ++ secret))).map Prod.fst
      = genSequentialPositions h w c
          (bytesToBits (natToBE4 secret.length ++ secret)).length := by
    apply List.map_fst_zip
    rw [hposlen, hbinlen]
  have hidx : ((genSequentialPositions h w c
        (bytesToBits (natToBE4 secret.length ++ secret)).length).zip
        (bytesToBits (natToBE4 secret.length ++ secret))).map
        (fun p => flatIdx w c p.1)
      = List.range' 0 ((genSequentialPositions h w c
          (bytesToBits (natToBE4 secret.length ++ secret)).length).zip
          (bytesToBits (natToBE4 secret.length ++ secret))).length := by
    rw [hziplen]
    rw [show (fun p : (Nat × Nat × Nat) × Nat => flatIdx w c p.1)
        = (flatIdx w c) ∘ Prod.fst from rfl]
    rw [← List.map_map, hmapfst, hpositions, List.map_map]
    rw [show (flatIdx w c ∘ fun i => (i / c / w, i / c % w, i % c)) = id from
        funext fun i => flatIdx_unflatten w c i]
    rw [List.map_id, List.range_eq_range']
  have hchar := lsbEmbedLoop_getD w c rnd
    ((genSequentialPositions h w c
        (bytesToBits (natToBE4 secret.length ++ secret)).length).zip
        (bytesToBits (natToBE4 secret.length ++ secret)))
    flat 0 0 hidx (by rw [hziplen, hflat]; omega)
  have hpairsget : ∀ j : Nat, j < 8 * (secret.length + 4) →
      (((genSequentialPositions h w c
          (bytesToBits (natToBE4 secret.length ++ secret)).length).zip
          (bytesToBits (natToBE4 secret.length ++ secret))).getD j default).2
        = (bytesToBits (natToBE4 secret.length ++ secret)).getD j 0 := by
    intro j hj
    have hj1 : j < ((genSequentialPositions h w c
        (bytesToBits (natToBE4 secret.length ++ secret)).length).zip
        (bytesToBits (natToBE4 secret.length ++ secret))).length := by
      rw [hziplen]; exact hj
    rw [List.getD_eq_getElem _ _ hj1, List.getElem_zip,
      List.getD_eq_getElem _ _ (by rw [hbinlen]; exact hj)]
  have hbit : ∀ j : Nat, j < 8 * (secret.length + 4) →
      (lsbEmbedLoop w c flat
        ((genSequentialPositions h w c
          (bytesToBits (natToBE4 secret.length ++ secret)).length).zip
          (bytesToBits (natToBE4 secret.length ++ secret))) rnd 0).getD j 0 % 2
      = (bytesToBits (natToBE4 secret.length ++ secret)).getD j 0 := by
    intro j hj
    rw [hchar j, if_pos (by rw [hziplen]; omega)]
    rw [Nat.sub_zero, Nat.zero_add, hpairsget j hj]
    apply lsbWritePixel_mod
    have hjb : j < (bytesToBits (natToBE4 secret.length ++ secret)).length := by
      rw [hbinlen]; exact hj
    rw [List.getD_eq_getElem _ _ hjb]
    exact hbinlt _ (List.getElem_mem _)
  have hstegolen : (lsbEmbedLoop w c flat
      ((genSequentialPositions h w c
        (bytesToBits (natToBE4 secret.length ++ secret)).length).zip
        (bytesToBits (natToBE4 secret.length ++ secret))) rnd 0).length
      = h * w * c := by
    rw [lsbEmbedLoop_length, hflat]
  -- extraction
  simp only [lsbExtract]
  have hheaderlen : (bytesToBits (natToBE4 secret.length)).length = 32 := by
    rw [bytesToBits_length]
    simp [natToBE4]
  have hlp : genSequentialPositions h w c 32
      = (List.range 32).map (fun i => (i / c / w, i / c % w, i % c)) :=
    genSequentialPositions_eq hw hc (by omega)
  have hlb : (genSequentialPositions h w c 32).map
        (fun pos => (lsbEmbedLoop w c flat
          ((genSequentialPositions h w c
            (bytesToBits (natToBE4 secret.length ++ secret)).length).zip
            (bytesToBits (natToBE4 secret.length ++ secret))) rnd 0).getD
          (flatIdx w c pos) 0 % 2)
      = bytesToBits (natToBE4 secret.length) := by
    rw [hlp, List.map_map]
    rw [List.map_congr_left (g := fun i =>
        (bytesToBits (natToBE4 secret.length)).getD i 0) ?pointwise]
    case pointwise =>
      intro i hi
      have hi32 : i < 32 := List.mem_range.mp hi
      simp only [Function.comp_apply]
      rw [flatIdx_unflatten, hbit i (by omega), bytesToBits_append,
        List.getD_append _ _ _ _ (by rw [hheaderlen]; exact hi32)]
    conv_lhs => rw [show (32 : Nat)
      = (bytesToBits (natToBE4 secret.length)).length from hheaderlen.symm]
    exact range_map_getD _ 0
  rw [hlb, bytesToBits_natToBE4_decode hlen32]
  rw [if_neg (by omega)]
  have htot : 32 + secret.length * 8 = 8 * (secret.length + 4) := by omega
  rw [htot, genSequentialPositions_eq hw hc hcap, lsbCollectBits_eq]
  rw [List.nil_append, List.length_nil, Nat.sub_zero, Nat.sub_zero]
  rw [List.map_drop, List.map_map]
  rw [List.map_congr_left (g := fun i =>
      (bytesToBits (natToBE4 secret.length ++ secret)).getD i 0) ?pw2]
  case pw2 =>
    intro i hi
    have hin : i < 8 * (secret.length + 4) := List.mem_range.mp hi
    simp only [Function.comp_apply]
    rw [flatIdx_unflatten, hbit i hin]
  rw [show List.range (8 * (secret.length + 4))
      = List.range (bytesToBits (natToBE4 secret.length ++ secret)).length from
      by rw [hbinlen]]
  rw [range_map_getD _ 0, bytesToBits_append]
  rw [show (32 : Nat) = (bytesToBits (natToBE4 secret.length)).length from
      hheaderlen.symm]
  rw [List.drop_left]
  rw [List.take_of_length_le (by rw [bytesToBits_length]; omega)]
  rw [bitsToBytesExact_bytesToBits hbytes]

/-! ## Audio sample LSB (`src/steganography/audio.py`)

Samples are the `np.frombuffer` int8/int16 array of an uncompressed PCM
WAV file; int16 samples may be negative, and Python's bitwise ops on
negative ints are two's-complement, so `value & 1 = value.emod 2` and
`(value & ~1) | bit = value - value.emod 2 + bit`. -/

/-- `samples[index] = (value & ~1) | int(bit)`. -/
def audioWriteSample (v : Int) (bit : Nat) : Int :=
  (v - v % 2) + bit

/-- The embedding loop of `AudioSteganography.embed`: write bit `i` of the
stream into sample `i` (sequential order). -/
def audioEmbedLoop : List Int → List Nat → List Int
  | samples, [] => samples
  | [], _ => []
  | v :: vs, b :: bs => audioWriteSample v b :: audioEmbedLoop vs bs

/-- `AudioSteganography.embed`: length-prefixed bitstream, checked against
`capacity_bits = len(samples)` before any sample is written. -/
def audioEmbed (samples : List Int) (secret : List Nat) :
    Except StegoError (List Int) :=
  let bitStream := bytesToBits (natToBE4 secret.length ++ secret)
  if bitStream.length > samples.length then .error .capacityExceeded
  else .ok (audioEmbedLoop samples bitStream)

/-- `AudioSteganography.extract`.  The source's first loop collects sample
LSBs until 32 bits are present (raising when the file is shorter), decodes
`data_length`, and the second loop keeps collecting until `32 +
data_length*8` bits, raising `"Audio payload truncated or corrupted"` when
the samples run out first; collecting bit-by-bit up to a bound is taking a
prefix of all the samples' LSBs. -/
def audioExtract (samples : List Int) : Except StegoError (List Nat) :=
  let bits := samples.map (fun v => (v % 2).toNat)
  if bits.length < 32 then .error .corruptPayload
  else
    let dataLength := bitsToNat (bits.take 32)
    let targetBits := 32 + dataLength * 8
    if bits.length < targetBits then .error .corruptPayload
    else .ok ((bitsToBytesPad (bits.take targetBits)).drop 4)

/-- `AudioSteganography.calculate_capacity`: `max(0, len(samples)//8 - 4)`
(the `Nat` subtraction is Python's `max(0, ·)`). -/
def audioCalculateCapacity (samples : List Int) : Nat :=
  samples.length / 8 - 4

/-! ### Audio lemmas -/

theorem audioWriteSample_emod {b : Nat} (v : Int) (hb : b < 2) :
    audioWriteSample v b % 2 = b := by
  unfold audioWriteSample
  omega

theorem audioEmbedLoop_length :
    ∀ (samples : List Int) (bits : List Nat),
    bits.length ≤ samples.length →
    (audioEmbedLoop samples bits).length = samples.length := by
  intro samples
  induction samples with
  | nil => intro bits h; cases bits <;> simp_all [audioEmbedLoop]
  | cons v vs ih =>
      intro bits h
      cases bits with
      | nil => rfl
      | cons b bs =>
          simp only [audioEmbedLoop, List.length_cons]
          rw [ih bs (by simpa using h)]

theorem audioEmbedLoop_bits :
    ∀ (samples : List Int) (bits : List Nat),
    bits.length ≤ samples.length → (∀ x ∈ bits, x < 2) →
    (audioEmbedLoop samples bits).map (fun v => (v % 2).toNat)
      = bits ++ (samples.drop bits.length).map (fun v => (v % 2).toNat) := by
  intro samples
  induction samples with
  | nil => intro bits h _; cases bits <;> simp_all [audioEmbedLoop]
  | cons v vs ih =>
      intro bits h hlt
      cases bits with
      | nil => simp [audioEmbedLoop]
      | cons b bs =>
          simp only [audioEmbedLoop, List.map_cons, List.length_cons,
            List.drop_succ_cons, List.cons_append, List.cons.injEq]
          constructor
          · rw [audioWriteSample_emod v (hlt b (by simp))]
            simp
          · exact ih bs (by simpa using h) (fun x hx => hlt x (by simp [hx]))

theorem audio_roundtrip (samples : List Int) (secret : List Nat)
    (hbytes : ∀ b ∈ secret, b < 256)
    (hlen32 : secret.length < 2 ^ 32)
    (hcap : 8 * (secret.length + 4) ≤ samples.length) :
    (audioEmbed samples secret).bind audioExtract = .ok secret := by
  have hbinlen : (bytesToBits (natToBE4 secret.length ++ secret)).length
      = 8 * (secret.length + 4) := by
    rw [bytesToBits_length]
    simp only [List.length_append, natToBE4, List.length_cons, List.length_nil]
    omega
  have hbinlt := bytesToBits_bits_lt (natToBE4 secret.length ++ secret)
  simp only [audioEmbed]
  rw [if_neg (by rw [hbinlen]; omega)]
  simp only [Except.bind, audioExtract]
  have hmap := audioEmbedLoop_bits samples
    (bytesToBits (natToBE4 secret.length ++ secret)) (by rw [hbinlen]; omega)
    hbinlt
  rw [hmap]
  have hlenmap : ((bytesToBits (natToBE4 secret.length ++ secret)) ++
      (samples.drop (bytesToBits (natToBE4 secret.length ++ secret)).length).map
        (fun v => (v % 2).toNat)).length = samples.length := by
    simp only [List.length_append, List.length_map, List.length_drop, hbinlen]
    omega
  rw [if_neg (by rw [hlenmap]; omega)]
  have hheaderlen : (bytesToBits (natToBE4 secret.length)).length = 32 := by
    rw [bytesToBits_length]; simp [natToBE4]
  have htake32 : ((bytesToBits (natToBE4 secret.length ++ secret)) ++
      (samples.drop (bytesToBits (natToBE4 secret.length ++ secret)).length).map
        (fun v => (v % 2).toNat)).take 32
      = bytesToBits (natToBE4 secret.length) := by
    rw [List.take_append_of_le_length (by rw [hbinlen]; omega)]
    rw [bytesToBits_append]
    rw [List.take_append_of_le_length (by rw [hheaderlen])]
    rw [show (32 : Nat) = (bytesToBits (natToBE4 secret.length)).length from
        hheaderlen.symm, List.take_length]
  rw [htake32, bytesToBits_natToBE4_decode hlen32]
  rw [if_neg (by rw [hlenmap]; omega)]
  have htaketgt : ((bytesToBits (natToBE4 secret.length ++ secret)) ++
      (samples.drop (bytesToBits (natToBE4 secret.length ++ secret)).length).map
        (fun v => (v % 2).toNat)).take (32 + secret.length * 8)
      = bytesToBits (natToBE4 secret.length ++ secret) := by
    rw [List.take_append_of_le_length (by rw [hbinlen]; omega)]
    rw [show 32 + secret.length * 8
        = (bytesToBits (natToBE4 secret.length ++ secret)).length from
        by rw [hbinlen]; omega, List.take_length]
  rw [htaketgt]
  rw [bitsToBytesPad_bytesToBits (by
    intro b hb
    rcases List.mem_append.mp hb with h1 | h2
    · exact natToBE4_lt _ b h1
    · exact hbytes b h2)]
  rw [List.drop_left' (by simp [natToBE4])]

theorem audioExtract_truncated (samples : List Int)
    (h32 : 32 ≤ samples.length)
    (htrunc : samples.length <
      32 + 8 * bitsToNat ((samples.map (fun v => (v % 2).toNat)).take 32)) :
    audioExtract samples = .error .corruptPayload := by
  simp only [audioExtract]
  rw [if_neg (by simp only [List.length_map]; omega)]
  rw [if_pos (by simp only [List.length_map]; omega)]

/-! ### Length-overrun behaviour of `lsb.py:extract` (for C4) -/

theorem genSequentialPositions_eq_min {h w c : Nat} (hw : 0 < w) (hc : 0 < c)
    (n : Nat) :
    genSequentialPositions h w c n =
      (List.range (min n (h * w * c))).map
        (fun i => (i / c / w, i / c % w, i % c)) := by
  by_cases hn : n ≤ h * w * c
  · rw [min_eq_left hn]
    exact genSequentialPositions_eq hw hc hn
  · rw [min_eq_right (le_of_not_le hn)]
    rw [genSequentialPositions]
    rw [show n = h * w * c + (n - (h * w * c)) by omega, List.range_add,
      List.filterMap_append]
    have h1 : (List.range (h * w * c)).filterMap (fun i =>
        if i / c / w < h then some (i / c / w, i / c % w, i % c) else none) =
        (List.range (h * w * c)).map (fun i => (i / c / w, i / c % w, i % c)) := by
      apply filterMap_eq_map_of_mem
      intro i hi
      have hi' : i < h * w * c := List.mem_range.mp hi
      have : i / c / w < h := by
        rw [Nat.div_lt_iff_lt_mul hw, Nat.div_lt_iff_lt_mul hc]
        calc i < h * w * c := hi'
        _ = h * w * c := by ring
      simp only [this, if_pos]
    have h2 : ((List.range (n - h * w * c)).map (h * w * c + ·)).filterMap
        (fun i =>
          if i / c / w < h then some (i / c / w, i / c % w, i % c) else none)
        = [] := by
      rw [List.filterMap_map]
      rw [List.filterMap_eq_nil_iff.mpr]
      intro k _
      simp only [Function.comp_apply]
      have hge : ¬ ((h * w * c + k) / c / w < h) := by
        have hdc : h * w * c ≤ h * w * c + k := by omega
        have : (h * w * c) / c ≤ (h * w * c + k) / c := Nat.div_le_div_right hdc
        rw [Nat.mul_div_cancel _ hc] at this
        have : (h * w) / w ≤ (h * w * c + k) / c / w := Nat.div_le_div_right this
        rw [Nat.mul_div_cancel _ hw] at this
        omega
      simp only [hge, if_neg]
      rfl
    rw [h1, h2, List.append_nil]

theorem bitsToBytesExact_length (bits : List Nat) :
    (bitsToBytesExact bits).length = bits.length / 8 := by
  induction bits using bitsToBytesExact.induct with
  | case1 b0 b1 b2 b3 b4 b5 b6 b7 rest ih =>
      simp only [bitsToBytesExact, List.length_cons, ih]
      omega
  | case2 x hx =>
      have hlen : x.length < 8 := by
        rcases x with _ | ⟨a0, _ | ⟨a1, _ | ⟨a2, _ | ⟨a3, _ | ⟨a4, _ |
          ⟨a5, _ | ⟨a6, _ | ⟨a7, rest⟩⟩⟩⟩⟩⟩⟩⟩
        · simp
        · simp
        · simp
        · simp
        · simp
        · simp
        · simp
        · simp
        · exact absurd rfl (hx a0 a1 a2 a3 a4 a5 a6 a7 rest)
      rcases x with _ | ⟨a0, _ | ⟨a1, _ | ⟨a2, _ | ⟨a3, _ | ⟨a4, _ |
        ⟨a5, _ | ⟨a6, rest⟩⟩⟩⟩⟩⟩⟩ <;>
        simp_all [bitsToBytesExact] <;> omega

theorem lsbExtract_no_raise (h w c : Nat) (flat : List Nat) (dl : Nat)
    (hw : 0 < w) (hc : 0 < c)
    (hdl : dl = bitsToNat ((genSequentialPositions h w c 32).map
        fun pos => flat.getD (flatIdx w c pos) 0 % 2))
    (hpos : 0 < dl) (hmax : dl ≤ 10000000) :
    ∃ bytes, lsbExtract h w c flat = .ok bytes ∧
      bytes.length = min dl ((min (32 + dl * 8) (h * w * c) - 32) / 8) := by
  simp only [lsbExtract]
  rw [← hdl]
  rw [if_neg (by omega)]
  refine ⟨_, rfl, ?_⟩
  rw [genSequentialPositions_eq_min hw hc, lsbCollectBits_eq]
  rw [List.nil_append, List.length_nil, Nat.sub_zero, Nat.sub_zero]
  rw [List.map_drop, List.map_map]
  rw [bitsToBytesExact_length]
  simp only [List.length_take, List.length_drop, List.length_map,
    List.length_range]
  omega

/-! ## Claim C1 -/

/-- C1 counterexample: the round-trip claim fails as stated.  A 3×4 RGB
carrier (36 channel values) has LSB capacity 0, so the empty payload is
within capacity and `embed` accepts it, but `extract` rejects the decoded
length 0 (`data_length <= 0` raises) instead of returning the payload. -/
theorem C1_counterexample :
    lsbCalculateCapacity 3 4 1 = 0 ∧
    lsbEmbed 3 4 3 1 (List.replicate 36 0) [] (fun _ => true) =
      .ok (List.replicate 36 0) ∧
    lsbExtract 3 4 3 (List.replicate 36 0) = .error .corruptPayload :=
  ⟨rfl, rfl, rfl⟩

/-- C1 (amended): the round-trip `extract(embed(carrier, payload)) =
payload` holds for LSB Matching in sequential mode (1 bit/channel, any
`random.choice` draws) whenever `0 < len(payload) ≤ capacity` and
`len(payload) ≤ 10^7`, and for Audio LSB whenever the carrier has at
least 32 samples and `len(payload) ≤ capacity < 2^32`.  (It fails without
these bounds, for LSB's random/adaptive orderings, and for PVD.) -/
theorem C1_amended :
    (∀ (h w : Nat) (flat secret : List Nat) (rnd : Nat → Bool),
      flat.length = h * w * 3 → (∀ b ∈ secret, b < 256) →
      0 < secret.length → secret.length ≤ 10000000 →
      (secret.length : Int) ≤ lsbCalculateCapacity h w 1 →
      (lsbEmbed h w 3 1 flat secret rnd).bind (lsbExtract h w 3)
        = .ok secret) ∧
    (∀ (samples : List Int) (secret : List Nat),
      (∀ b ∈ secret, b < 256) → secret.length < 2 ^ 32 →
      32 ≤ samples.length →
      secret.length ≤ audioCalculateCapacity samples →
      (audioEmbed samples secret).bind audioExtract = .ok secret) := by
  constructor
  · intro h w flat secret rnd hflat hbytes hpos hmax hcap
    simp only [lsbCalculateCapacity] at hcap
    have hnat : secret.length + 4 ≤ h * w * 3 * 1 / 8 := by omega
    have hcap8 : 8 * (secret.length + 4) ≤ h * w * 3 := by
      have hmul := Nat.div_mul_le_self (h * w * 3 * 1) 8
      have : 8 * (secret.length + 4) ≤ 8 * (h * w * 3 * 1 / 8) := by omega
      omega
    have hw : 0 < w := by
      rcases Nat.eq_zero_or_pos w with h0 | h1
      · subst h0
        simp only [Nat.mul_zero, Nat.zero_mul] at hcap8
        omega
      · exact h1
    exact lsb_sequential_roundtrip h w 3 flat secret rnd hw (by norm_num)
      hflat hbytes hpos hmax hcap8
  · intro samples secret hbytes hlen32 h32 hcap
    simp only [audioCalculateCapacity] at hcap
    have hcap8 : 8 * (secret.length + 4) ≤ samples.length := by
      have hmul := Nat.div_mul_le_self samples.length 8
      omega
    exact audio_roundtrip samples secret hbytes hlen32 hcap8

/-- C1 witness: the amended round-trip at concrete carriers — one byte
through a 4×4 RGB image via sequential LSB, the empty payload through a
40-sample audio carrier. -/
theorem C1_witness :
    ((lsbEmbed 4 4 3 1 (List.replicate 48 0) [65] (fun _ => true)).bind
      (lsbExtract 4 4 3) = .ok [65]) ∧
    ((audioEmbed (List.replicate 40 (0 : Int)) []).bind audioExtract
      = .ok []) :=
  ⟨C1_amended.1 4 4 (List.replicate 48 0) [65] (fun _ => true)
      (by decide) (by decide) (by decide) (by decide) (by decide),
   C1_amended.2 (List.replicate 40 (0 : Int)) []
      (by decide) (by decide) (by decide) (by decide)⟩

/-! ## Claim C4 -/

/-- C4 counterexample: LSB extraction does not raise on a length overrun.
A 3×4 RGB stego image whose LSBs decode to `data_length = 1` needs
`32 + 8` bits but only 36 exist; extraction returns the empty byte string
(`.ok []`) instead of raising `CorruptPayloadError`. -/
theorem C4_counterexample :
    lsbExtract 3 4 3 (List.replicate 31 0 ++ 1 :: List.replicate 4 0)
      = .ok [] ∧ 3 * 4 * 3 < 32 + 1 * 8 :=
  ⟨rfl, by norm_num⟩

/-- C4 (amended): every bitstream extractor reads the 32-bit big-endian
length first, but only Audio LSB raises when the declared length exceeds
the remaining bit budget; LSB raises only for declared lengths 0 or above
10^7 and otherwise returns `min dl ((available − 32)/8)` whole bytes — a
short (possibly empty) result instead of an error when the budget is
exceeded. -/
theorem C4_amended :
    (∀ samples : List Int, 32 ≤ samples.length →
      samples.length <
        32 + 8 * bitsToNat ((samples.map (fun v => (v % 2).toNat)).take 32) →
      audioExtract samples = .error .corruptPayload) ∧
    (∀ (h w c : Nat) (flat : List Nat) (dl : Nat), 0 < w → 0 < c →
      dl = bitsToNat ((genSequentialPositions h w c 32).map
        fun pos => flat.getD (flatIdx w c pos) 0 % 2) →
      0 < dl → dl ≤ 10000000 →
      ∃ bytes, lsbExtract h w c flat = .ok bytes ∧
        bytes.length = min dl ((min (32 + dl * 8) (h * w * c) - 32) / 8)) := by
  constructor
  · intro samples h32 htrunc
    exact audioExtract_truncated samples h32 htrunc
  · intro h w c flat dl hw hc hdl hpos hmax
    exact lsbExtract_no_raise h w c flat dl hw hc hdl hpos hmax

/-- C4 witness: a 32-sample audio carrier declaring one payload byte
raises, while the 3×4 LSB image declaring one byte returns zero bytes. -/
theorem C4_witness :
    (audioExtract (List.replicate 31 (0 : Int) ++ [1])
      = .error .corruptPayload) ∧
    (∃ bytes, lsbExtract 3 4 3 (List.replicate 31 0 ++ 1 :: List.replicate 4 0)
      = .ok bytes ∧
      bytes.length = min 1 ((min (32 + 1 * 8) (3 * 4 * 3) - 32) / 8)) :=
  ⟨C4_amended.1 (List.replicate 31 (0 : Int) ++ [1]) (by decide) (by decide),
   C4_amended.2 3 4 3 (List.replicate 31 0 ++ 1 :: List.replicate 4 0) 1
      (by decide) (by decide) (by decide) (by decide) (by decide)⟩

/-! ## Pixel Value Differencing (`src/steganography/pvd.py`)

The image is again the flattened row-major uint8 array.  Pixel pairs are
`(flat[2j], flat[2j+1])` for `j < len(flat)//2` (Python's
`range(0, len(flat)-1, 2)`), and a pair is processed when
`j % pair_skip == 0`.  `value & ~mask` for `mask = 2^w - 1` on a
non-negative int is `value / 2^w * 2^w`, and `x | int(bits, 2)` on the
cleared value is addition of the disjoint low bits. -/

/-- `_RANGES`: difference ranges and payload bits per pair. -/
def pvdRanges : List (Nat × Nat × Nat) :=
  [(0, 7, 3), (8, 15, 4), (16, 31, 5), (32, 63, 6), (64, 127, 7), (128, 255, 8)]

/-- The scan of `_range_for_difference`: first matching range, else
`_RANGES[-1]`. -/
def rangeForDifferenceAux : List (Nat × Nat × Nat) → Nat → Nat × Nat × Nat
  | [], _ => (128, 255, 8)
  | (lo, hi, bits) :: rest, d =>
      if lo ≤ d ∧ d ≤ hi then (lo, hi, bits) else rangeForDifferenceAux rest d

/-- `_range_for_difference`. -/
def rangeForDifference (d : Nat) : Nat × Nat × Nat :=
  rangeForDifferenceAux pvdRanges d

/-- `_write_bits`: clear the low `len(bits)` bits and or the payload bits
in, clamped into `0..255`. -/
def pvdWriteBits (v : Nat) (bits : List Nat) : Nat :=
  if bits = [] then v
  else min 255 (v / 2 ^ bits.length * 2 ^ bits.length + bitsToNat bits)

/-- The per-pair capacity accumulation of `_estimate_capacity` over the
processed pair indices. -/
def pvdCapacitySum (flat : List Nat) : List Nat → Nat
  | [] => 0
  | j :: js =>
      (rangeForDifference
        ((flat.getD (2 * j) 0 : Int) - flat.getD (2 * j + 1) 0).natAbs).2.2
      + pvdCapacitySum flat js

/-- The processed pair indices: `enumerate(range(0, len(flat)-1, 2))`
filtered by `pair_index % pair_skip == 0`. -/
def pvdPairs (flatLen pairSkip : Nat) : List Nat :=
  (List.range (flatLen / 2)).filter (fun j => j % pairSkip == 0)

/-- `_estimate_capacity`. -/
def pvdEstimateCapacity (flat : List Nat) (pairSkip : Nat) : Nat :=
  pvdCapacitySum flat (pvdPairs flat.length pairSkip)

/-- The embedding loop of `PVDSteganography.embed`: for each processed
pair, split the next `bits_per_pair` payload bits (zero-padded) across
the pair's low-order bits, then re-adjust the larger value upward when
the new difference fell below the selected range's lower bound.  Returns
the updated pixels and the unconsumed bits. -/
def pvdEmbedLoop (flat : List Nat) : List Nat → List Nat → List Nat × List Nat
  | _, [] => (flat, [])
  | [], rest => (flat, rest)
  | j :: js, rest =>
      let a := flat.getD (2 * j) 0
      let b := flat.getD (2 * j + 1) 0
      let r := rangeForDifference ((a : Int) - b).natAbs
      let lower := r.1
      let bitsPerPair := r.2.2
      let chunk0 := rest.take bitsPerPair
      let chunk := chunk0 ++ List.replicate (bitsPerPair - chunk0.length) 0
      let firstLen := (bitsPerPair + 1) / 2
      let a1 := pvdWriteBits a (chunk.take firstLen)
      let b1 := pvdWriteBits b (chunk.drop firstLen)
      let newDiff := ((a1 : Int) - b1).natAbs
      let p :=
        if newDiff < lower then
          let adjust := lower - newDiff
          if b1 ≤ a1 then (min 255 (a1 + adjust), b1)
          else (a1, min 255 (b1 + adjust))
        else (a1, b1)
      pvdEmbedLoop ((flat.set (2 * j) p.1).set (2 * j + 1) p.2) js
        (rest.drop bitsPerPair)

/-- `PVDSteganography.embed`: length-prefixed bitstream checked against
`_estimate_capacity` before anything is written; a second check raises
when the loop could not place the full payload. -/
def pvdEmbed (flat : List Nat) (secret : List Nat) (pairSkip : Nat) :
    Except StegoError (List Nat) :=
  let skip := max 1 pairSkip
  let bitStream := bytesToBits (natToBE4 secret.length ++ secret)
  if bitStream.length > pvdEstimateCapacity flat skip then
    .error .capacityExceeded
  else
    let result := pvdEmbedLoop flat (pvdPairs flat.length skip) bitStream
    if result.2 ≠ [] then .error .capacityExceeded
    else .ok result.1

/-- `PVDSteganography.calculate_capacity`: `max(0, bits//8 - 4)` (the
`Nat` subtraction is the `max(0, ·)`). -/
def pvdCalculateCapacity (flat : List Nat) (pairSkip : Nat) : Nat :=
  pvdEstimateCapacity flat (max 1 pairSkip) / 8 - 4

/-! ### PVD lemmas -/

theorem rangeForDifference_spec (d : Nat) :
    (d ≤ 7 → rangeForDifference d = (0, 7, 3)) ∧
    (8 ≤ d → d ≤ 15 → rangeForDifference d = (8, 15, 4)) ∧
    (16 ≤ d → d ≤ 31 → rangeForDifference d = (16, 31, 5)) ∧
    (32 ≤ d → d ≤ 63 → rangeForDifference d = (32, 63, 6)) ∧
    (64 ≤ d → d ≤ 127 → rangeForDifference d = (64, 127, 7)) ∧
    (128 ≤ d → rangeForDifference d = (128, 255, 8)) := by
  refine ⟨?_, ?_, ?_, ?_, ?_, ?_⟩
  · intro h1
    simp only [rangeForDifference, pvdRanges, rangeForDifferenceAux]
    rw [if_pos (by omega)]
  · intro h1 h2
    simp only [rangeForDifference, pvdRanges, rangeForDifferenceAux]
    rw [if_neg (by omega), if_pos (by omega)]
  · intro h1 h2
    simp only [rangeForDifference, pvdRanges, rangeForDifferenceAux]
    rw [if_neg (by omega), if_neg (by omega), if_pos (by omega)]
  · intro h1 h2
    simp only [rangeForDifference, pvdRanges, rangeForDifferenceAux]
    rw [if_neg (by omega), if_neg (by omega), if_neg (by omega),
      if_pos (by omega)]
  · intro h1 h2
    simp only [rangeForDifference, pvdRanges, rangeForDifferenceAux]
    rw [if_neg (by omega), if_neg (by omega), if_neg (by omega),
      if_neg (by omega), if_pos (by omega)]
  · intro h1
    simp only [rangeForDifference, pvdRanges, rangeForDifferenceAux]
    rw [if_neg (by omega), if_neg (by omega), if_neg (by omega),
      if_neg (by omega), if_neg (by omega)]
    by_cases h2 : d ≤ 255
    · rw [if_pos (by omega)]
    · rw [if_neg (by omega)]

theorem pvdPairs_sorted (L skip : Nat) : (pvdPairs L skip).Pairwise (· < ·) :=
  List.Pairwise.sublist (List.filter_sublist _) (List.pairwise_lt_range _)

theorem pvdCapacitySum_set (flat : List Nat) (j v1 v2 : Nat) :
    ∀ js : List Nat, (∀ x ∈ js, j < x) →
    pvdCapacitySum ((flat.set (2 * j) v1).set (2 * j + 1) v2) js
      = pvdCapacitySum flat js := by
  intro js
  induction js with
  | nil => intro _; rfl
  | cons x xs ih =>
      intro hall
      have hx : j < x := hall x (by simp)
      simp only [pvdCapacitySum]
      rw [getD_set_ne _ _ (by omega), getD_set_ne _ _ (by omega),
        getD_set_ne _ _ (by omega), getD_set_ne _ _ (by omega),
        ih (fun y hy => hall y (by simp [hy]))]

theorem pvdEmbedLoop_consumes :
    ∀ (pairs : List Nat) (flat bits : List Nat),
    pairs.Pairwise (· < ·) →
    bits.length ≤ pvdCapacitySum flat pairs →
    (pvdEmbedLoop flat pairs bits).2 = [] := by
  intro pairs
  induction pairs with
  | nil =>
      intro flat bits _ hle
      cases bits with
      | nil => rfl
      | cons b bs => simp [pvdCapacitySum] at hle
  | cons j js ih =>
      intro flat bits hpw hle
      cases bits with
      | nil => rfl
      | cons b bs =>
          simp only [pvdEmbedLoop]
          apply ih _ _ (List.pairwise_cons.mp hpw).2
          rw [pvdCapacitySum_set flat j _ _ js (List.pairwise_cons.mp hpw).1]
          simp only [pvdCapacitySum] at hle
          simp only [List.length_drop]
          omega

theorem bitStream_length (secret : List Nat) :
    (bytesToBits (natToBE4 secret.length ++ secret)).length
      = 8 * (secret.length + 4) := by
  rw [bytesToBits_length]
  simp only [List.length_append, natToBE4, List.length_cons, List.length_nil]
  omega

/-! ## Claim C6 -/

/-- C6 counterexample: a processed PVD pair does not contribute a fixed 4
bits.  The pair `(0, 0)` has difference 0, which `_range_for_difference`
maps to the range `(0, 7)` with 3 bits, so the two-pixel carrier `[0, 0]`
has an estimated capacity of 3 bits, not 4. -/
theorem C6_counterexample :
    pvdEstimateCapacity [0, 0] 1 = 3 ∧ rangeForDifference 0 = (0, 7, 3) :=
  ⟨rfl, rfl⟩

/-- C6 (amended): PVD stores a variable number of payload bits per
processed pair given by the `_RANGES` difference table — 3 bits for
difference 0–7, 4 for 8–15, 5 for 16–31, 6 for 32–63, 7 for 64–127 and 8
for 128 upward — so each pair contributes between 3 and 8 bits, not a
fixed 4. -/
theorem C6_amended :
    (∀ d : Nat,
      (d ≤ 7 → (rangeForDifference d).2.2 = 3) ∧
      (8 ≤ d → d ≤ 15 → (rangeForDifference d).2.2 = 4) ∧
      (16 ≤ d → d ≤ 31 → (rangeForDifference d).2.2 = 5) ∧
      (32 ≤ d → d ≤ 63 → (rangeForDifference d).2.2 = 6) ∧
      (64 ≤ d → d ≤ 127 → (rangeForDifference d).2.2 = 7) ∧
      (128 ≤ d → (rangeForDifference d).2.2 = 8)) ∧
    (∀ d : Nat, 3 ≤ (rangeForDifference d).2.2 ∧
      (rangeForDifference d).2.2 ≤ 8) := by
  constructor
  · intro d
    obtain ⟨s1, s2, s3, s4, s5, s6⟩ := rangeForDifference_spec d
    refine ⟨fun a => by rw [s1 a], fun a b => by rw [s2 a b],
      fun a b => by rw [s3 a b], fun a b => by rw [s4 a b],
      fun a b => by rw [s5 a b], fun a => by rw [s6 a]⟩
  · intro d
    obtain ⟨s1, s2, s3, s4, s5, s6⟩ := rangeForDifference_spec d
    by_cases h1 : d ≤ 7
    · rw [s1 h1]; decide
    by_cases h2 : d ≤ 15
    · rw [s2 (by omega) h2]; decide
    by_cases h3 : d ≤ 31
    · rw [s3 (by omega) h3]; decide
    by_cases h4 : d ≤ 63
    · rw [s4 (by omega) h4]; decide
    by_cases h5 : d ≤ 127
    · rw [s5 (by omega) h5]; decide
    · rw [s6 (by omega)]; decide

/-- C6 witness: the amended bits-per-pair table at concrete differences
(9 ↦ 4 bits, 300 ↦ 8 bits, and the 3-bit lower bound at difference 0). -/
theorem C6_witness :
    (rangeForDifference 9).2.2 = 4 ∧ (rangeForDifference 300).2.2 = 8 ∧
    3 ≤ (rangeForDifference 0).2.2 :=
  ⟨(C6_amended.1 9).2.1 (by decide) (by decide),
   ((C6_amended.1 300).2.2.2.2.2 (by decide)),
   (C6_amended.2 0).1⟩

/-! ## Claim C3 -/

/-- C3 counterexample: on the two-pixel carrier `[0, 0]` the PVD capacity
query returns `max(0, 3//8 − 4) = 0`, yet embedding a payload of exactly
`capacity` bytes (the empty payload) raises the capacity error, because
the 32-bit length header itself does not fit the 3-bit budget. -/
theorem C3_counterexample :
    pvdCalculateCapacity [0, 0] 1 = 0 ∧
    pvdEmbed [0, 0] [] 1 = .error .capacityExceeded :=
  ⟨rfl, rfl⟩

/-- C3 (amended): each bitstream embedder checks its capacity before
producing any output and raises exactly when the framed payload
(`payload + 4` header bytes) exceeds the carrier's raw byte budget: LSB
raises iff `len + 4 > (h*w*c*bits)//8`, PVD iff `8*(len+4)` exceeds the
range-table bit estimate (equivalently, on carriers whose bit budget
covers the header, a payload of exactly `capacity` bytes succeeds and
`capacity + 1` raises), and Audio LSB iff `8*(len+4) > len(samples)`.
On carriers too small for the header the clamped capacity query is 0 yet
even the empty payload raises (see the counterexample). -/
theorem C3_amended :
    (∀ (h w c bpc : Nat) (flat secret : List Nat) (rnd : Nat → Bool),
      ((secret.length : Int) + 4 > ((h * w * c * bpc / 8 : Nat) : Int) →
        lsbEmbed h w c bpc flat secret rnd = .error .capacityExceeded) ∧
      ((secret.length : Int) + 4 ≤ ((h * w * c * bpc / 8 : Nat) : Int) →
        ∃ stego, lsbEmbed h w c bpc flat secret rnd = .ok stego)) ∧
    (∀ (flat secret : List Nat) (skip : Nat),
      (8 * (secret.length + 4) > pvdEstimateCapacity flat (max 1 skip) →
        pvdEmbed flat secret skip = .error .capacityExceeded) ∧
      (8 * (secret.length + 4) ≤ pvdEstimateCapacity flat (max 1 skip) →
        ∃ stego, pvdEmbed flat secret skip = .ok stego) ∧
      (32 ≤ pvdEstimateCapacity flat (max 1 skip) →
        secret.length ≤ pvdCalculateCapacity flat skip →
        ∃ stego, pvdEmbed flat secret skip = .ok stego) ∧
      (secret.length = pvdCalculateCapacity flat skip + 1 →
        pvdEmbed flat secret skip = .error .capacityExceeded)) ∧
    (∀ (samples : List Int) (secret : List Nat),
      (8 * (secret.length + 4) > samples.length →
        audioEmbed samples secret = .error .capacityExceeded) ∧
      (8 * (secret.length + 4) ≤ samples.length →
        ∃ stego, audioEmbed samples secret = .ok stego)) := by
  have pvdok : ∀ (flat secret : List Nat) (skip : Nat),
      8 * (secret.length + 4) ≤ pvdEstimateCapacity flat (max 1 skip) →
      ∃ stego, pvdEmbed flat secret skip = .ok stego := by
    intro flat secret skip hle
    simp only [pvdEmbed]
    rw [if_neg (by rw [bitStream_length]; omega)]
    rw [if_neg (by
      rw [pvdEmbedLoop_consumes (pvdPairs flat.length (max 1 skip)) flat _
        (pvdPairs_sorted _ _) (by rw [bitStream_length]; exact hle)]
      simp)]
    exact ⟨_, rfl⟩
  refine ⟨?_, ?_, ?_⟩
  · intro h w c bpc flat secret rnd
    constructor
    · intro hgt
      simp only [lsbEmbed]
      rw [if_pos (by omega)]
    · intro hle
      simp only [lsbEmbed]
      rw [if_neg (by omega)]
      exact ⟨_, rfl⟩
  · intro flat secret skip
    refine ⟨?_, pvdok flat secret skip, ?_, ?_⟩
    · intro hgt
      simp only [pvdEmbed]
      rw [if_pos (by rw [bitStream_length]; omega)]
    · intro h32 hcap
      apply pvdok
      simp only [pvdCalculateCapacity] at hcap
      have := Nat.div_mul_le_self (pvdEstimateCapacity flat (max 1 skip)) 8
      omega
    · intro heq
      simp only [pvdEmbed]
      rw [if_pos (by
        rw [bitStream_length]
        simp only [pvdCalculateCapacity] at heq
        omega)]
  · intro samples secret
    constructor
    · intro hgt
      simp only [audioEmbed]
      rw [if_pos (by rw [bitStream_length]; omega)]
    · intro hle
      simp only [audioEmbed]
      rw [if_neg (by rw [bitStream_length]; omega)]
      exact ⟨_, rfl⟩

/-- C3 witness: the capacity boundary at concrete carriers — a too-small
LSB image raises and a fitting one embeds; a 40-bit PVD carrier accepts
exactly-capacity (1 byte) and rejects capacity+1 (2 bytes); an 8-sample
audio carrier raises while a 32-sample one embeds the empty payload. -/
theorem C3_witness :
    (lsbEmbed 1 1 1 1 [0] [0] (fun _ => true) = .error .capacityExceeded) ∧
    (∃ stego, lsbEmbed 4 4 3 1 (List.replicate 48 0) [] (fun _ => true)
      = .ok stego) ∧
    (∃ stego, pvdEmbed [255, 0, 255, 0, 255, 0, 255, 0, 255, 0] [65] 1
      = .ok stego) ∧
    (pvdEmbed [255, 0, 255, 0, 255, 0, 255, 0, 255, 0] [65, 66] 1
      = .error .capacityExceeded) ∧
    (audioEmbed (List.replicate 8 (0 : Int)) [] = .error .capacityExceeded) ∧
    (∃ stego, audioEmbed (List.replicate 32 (0 : Int)) [] = .ok stego) :=
  ⟨(C3_amended.1 1 1 1 1 [0] [0] (fun _ => true)).1 (by decide),
   (C3_amended.1 4 4 3 1 (List.replicate 48 0) [] (fun _ => true)).2 (by decide),
   (C3_amended.2.1 [255, 0, 255, 0, 255, 0, 255, 0, 255, 0] [65] 1).2.2.1
     (by decide) (by decide),
   (C3_amended.2.1 [255, 0, 255, 0, 255, 0, 255, 0, 255, 0] [65, 66] 1).2.2.2
     (by decide),
   (C3_amended.2.2 (List.replicate 8 (0 : Int)) []).1 (by decide),
   (C3_amended.2.2 (List.replicate 32 (0 : Int)) []).2 (by decide)⟩

/-! ## CryptoManager (`src/cryptography_module/encryption.py`)

`encrypt` derives a 32-byte key from the password and a random 16-byte
salt (Argon2id with PBKDF2 fallback) and returns
`salt ‖ nonce ‖ AESGCM(key).encrypt(nonce, plaintext, None)` with a random
12-byte nonce.  `decrypt` re-slices the blob (`salt_bytes = 16` from
`config.CRYPTO_SETTINGS`), rejects blobs shorter than `salt + nonce`
(28 bytes) with a length `ValueError`, re-derives the key and opens the
AEAD; `InvalidTag` is the specification's `AuthenticationError`.  The KDF
and AES-256-GCM are third-party primitives (`argon2`, `cryptography`), so
they are parameters here, constrained per-claim by hypotheses stating the
behaviour their own documentation guarantees. -/

/-- `CryptoManager.encrypt`: `salt + nonce + ct`.  The random salt and
nonce (`os.urandom`) are explicit arguments. -/
def encryptBlob (kdf : String → List Nat → List Nat)
    (aeadEncrypt : List Nat → List Nat → List Nat → List Nat)
    (password : String) (salt nonce plaintext : List Nat) : List Nat :=
  salt ++ nonce ++ aeadEncrypt (kdf password salt) nonce plaintext

/-- `CryptoManager.decrypt`: length check, slicing, key re-derivation and
AEAD open (`none` models the `InvalidTag` failure). -/
def decryptBlob (kdf : String → List Nat → List Nat)
    (aeadDecrypt : List Nat → List Nat → List Nat → Option (List Nat))
    (password : String) (blob : List Nat) : Except StegoError (List Nat) :=
  if blob.length < 16 + 12 then .error .invalidInput
  else
    let salt := blob.take 16
    let nonce := (blob.drop 16).take 12
    let ciphertext := blob.drop (16 + 12)
    match aeadDecrypt (kdf password salt) nonce ciphertext with
    | some plaintext => .ok plaintext
    | none => .error .authenticationError

/-! ### Blob slicing -/

theorem encryptBlob_slices (kdf : String → List Nat → List Nat)
    (enc : List Nat → List Nat → List Nat → List Nat)
    (password : String) (salt nonce plaintext : List Nat)
    (hsalt : salt.length = 16) (hnonce : nonce.length = 12) :
    (encryptBlob kdf enc password salt nonce plaintext).take 16 = salt ∧
    ((encryptBlob kdf enc password salt nonce plaintext).drop 16).take 12
      = nonce ∧
    (encryptBlob kdf enc password salt nonce plaintext).drop (16 + 12)
      = enc (kdf password salt) nonce plaintext := by
  refine ⟨?_, ?_, ?_⟩
  · rw [encryptBlob,
      List.take_append_of_le_length (by simp only [List.length_append]; omega),
      List.take_append_of_le_length (by omega),
      List.take_of_length_le (by omega)]
  · rw [encryptBlob, List.append_assoc, List.drop_left' hsalt,
      List.take_append_of_le_length (by omega),
      List.take_of_length_le (by omega)]
  · rw [encryptBlob,
      List.drop_left' (by rw [List.length_append]; omega)]

/-! ## Claim C2 -/

/-- C2: AEAD correctness of the blob layout.  Whenever the AEAD primitive
round-trips under the derived key (its documented behaviour),
`decrypt(encrypt(data, pw), pw)` returns exactly `data`; and for every
wrong password whose derived key the AEAD rejects (tag failure — the
guarantee AES-GCM provides when the keys differ), `decrypt` raises
`AuthenticationError` and never returns plaintext bytes. -/
theorem C2_aead_correctness (kdf : String → List Nat → List Nat)
    (enc : List Nat → List Nat → List Nat → List Nat)
    (dec : List Nat → List Nat → List Nat → Option (List Nat))
    (password : String) (salt nonce plaintext : List Nat)
    (hsalt : salt.length = 16) (hnonce : nonce.length = 12)
    (hround : dec (kdf password salt) nonce
      (enc (kdf password salt) nonce plaintext) = some plaintext) :
    decryptBlob kdf dec password
      (encryptBlob kdf enc password salt nonce plaintext) = .ok plaintext ∧
    ∀ wrongPassword : String,
      dec (kdf wrongPassword salt) nonce
        (enc (kdf password salt) nonce plaintext) = none →
      decryptBlob kdf dec wrongPassword
        (encryptBlob kdf enc password salt nonce plaintext)
        = .error .authenticationError := by
  obtain ⟨hs, hn, hc⟩ := encryptBlob_slices kdf enc password salt nonce
    plaintext hsalt hnonce
  have hlen : ¬ ((encryptBlob kdf enc password salt nonce plaintext).length
      < 16 + 12) := by
    simp only [encryptBlob, List.length_append]
    omega
  constructor
  · simp only [decryptBlob]
    rw [if_neg hlen, hs, hn, hc, hround]
  · intro wrongPassword hwrong
    simp only [decryptBlob]
    rw [if_neg hlen, hs, hn, hc, hwrong]

/-- C2 witness: the blob layout at a concrete toy AEAD/KDF (key = the
password's character codes, tag = the key appended to the plaintext):
decrypting with "pw" restores `[1, 2, 3]`, decrypting with "xx" fails. -/
theorem C2_witness :
    decryptBlob (fun p _ => p.toList.map Char.toNat)
      (fun k _ c => if c.drop 3 = k then some (c.take 3) else none) "pw"
      (encryptBlob (fun p _ => p.toList.map Char.toNat) (fun k _ p => p ++ k)
        "pw" (List.replicate 16 0) (List.replicate 12 0) [1, 2, 3])
      = .ok [1, 2, 3] ∧
    decryptBlob (fun p _ => p.toList.map Char.toNat)
      (fun k _ c => if c.drop 3 = k then some (c.take 3) else none) "xx"
      (encryptBlob (fun p _ => p.toList.map Char.toNat) (fun k _ p => p ++ k)
        "pw" (List.replicate 16 0) (List.replicate 12 0) [1, 2, 3])
      = .error .authenticationError :=
  ⟨(C2_aead_correctness (fun p _ => p.toList.map Char.toNat)
      (fun k _ p => p ++ k)
      (fun k _ c => if c.drop 3 = k then some (c.take 3) else none)
      "pw" (List.replicate 16 0) (List.replicate 12 0) [1, 2, 3]
      (by decide) (by decide) (by decide)).1,
   (C2_aead_correctness (fun p _ => p.toList.map Char.toNat)
      (fun k _ p => p ++ k)
      (fun k _ c => if c.drop 3 = k then some (c.take 3) else none)
      "pw" (List.replicate 16 0) (List.replicate 12 0) [1, 2, 3]
      (by decide) (by decide) (by decide)).2 "xx" (by decide)⟩

/-! ## Claim C10 -/

/-- C10: when the AEAD adds exactly the 16-byte GCM tag (AES-GCM's
documented overhead), every encrypt blob is `salt(16) ‖ nonce(12) ‖
ciphertext(len+16)`, hence exactly `len(plaintext) + 44` bytes, and it
always passes decrypt's 28-byte minimum-length check (decrypt never
raises the length error on such a blob). -/
theorem C10_blob_length (kdf : String → List Nat → List Nat)
    (enc : List Nat → List Nat → List Nat → List Nat)
    (password : String) (salt nonce plaintext : List Nat)
    (hsalt : salt.length = 16) (hnonce : nonce.length = 12)
    (htag : (enc (kdf password salt) nonce plaintext).length
      = plaintext.length + 16) :
    (encryptBlob kdf enc password salt nonce plaintext).length
      = plaintext.length + 44 ∧
    ∀ dec : List Nat → List Nat → List Nat → Option (List Nat),
      decryptBlob kdf dec password
        (encryptBlob kdf enc password salt nonce plaintext)
        ≠ .error .invalidInput := by
  have hlen : (encryptBlob kdf enc password salt nonce plaintext).length
      = plaintext.length + 44 := by
    simp only [encryptBlob, List.length_append]
    omega
  refine ⟨hlen, ?_⟩
  intro dec
  simp only [decryptBlob]
  rw [if_neg (by omega)]
  cases hdec : dec (kdf password
      ((encryptBlob kdf enc password salt nonce plaintext).take 16))
      (((encryptBlob kdf enc password salt nonce plaintext).drop 16).take 12)
      ((encryptBlob kdf enc password salt nonce plaintext).drop (16 + 12)) with
  | none => simp [hdec]
  | some p => simp [hdec]

/-- C10 witness: the 44-byte overhead at a concrete toy AEAD appending a
16-byte tag to a 3-byte plaintext. -/
theorem C10_witness :
    (encryptBlob (fun p _ => p.toList.map Char.toNat)
      (fun _ _ p => p ++ List.replicate 16 9) "pw"
      (List.replicate 16 0) (List.replicate 12 0) [1, 2, 3]).length
      = 3 + 44 ∧
    ∀ dec : List Nat → List Nat → List Nat → Option (List Nat),
      decryptBlob (fun p _ => p.toList.map Char.toNat) dec "pw"
        (encryptBlob (fun p _ => p.toList.map Char.toNat)
          (fun _ _ p => p ++ List.replicate 16 9) "pw"
          (List.replicate 16 0) (List.replicate 12 0) [1, 2, 3])
        ≠ .error .invalidInput :=
  C10_blob_length (fun p _ => p.toList.map Char.toNat)
    (fun _ _ p => p ++ List.replicate 16 9) "pw"
    (List.replicate 16 0) (List.replicate 12 0) [1, 2, 3]
    (by decide) (by decide) (by decide)

/-! ## AdaptiveSteganography (`src/steganography/adaptive.py`)

The orchestrator's file classification and method selection are pure
string/number logic; the two cv2 measurements feeding the complexity
score (Canny edge density as a 0–100 percentage and Laplacian variance)
are floating-point image statistics and enter as rational parameters. -/

/-- Carrier classes of `_detect_file_type`. -/
inductive FileType where
  | losslessImage
  | lossyImage
  | audio
  | video
  | unknown
  deriving DecidableEq, Repr

/-- `str.lower()` on an extension (ASCII case folding, which is all
`.lower()` does on ASCII extension strings). -/
def lowerChar (ch : Char) : Char :=
  if 'A' ≤ ch ∧ ch ≤ 'Z' then Char.ofNat (ch.toNat + 32) else ch

/-- ASCII `str.lower()` over the whole suffix string. -/
def toLowerSuffix (s : String) : String :=
  String.mk (s.data.map lowerChar)

/-- `_detect_file_type`: classify by the lower-cased filename extension. -/
def detectFileType (suffix : String) : FileType :=
  let s := toLowerSuffix suffix
  if s = ".png" ∨ s = ".bmp" ∨ s = ".tiff" then .losslessImage
  else if s = ".jpg" ∨ s = ".jpeg" then .lossyImage
  else if s = ".wav" ∨ s = ".flac" then .audio
  else if s = ".mp4" ∨ s = ".avi" ∨ s = ".mkv" then .video
  else .unknown

/-- `_analyze_image_complexity` after the cv2 measurements:
`edge_density * 0.6 + min(100, laplacian_variance / 50) * 0.4`. -/
def analyzeImageComplexity (edgeDensity textureVariance : ℚ) : ℚ :=
  edgeDensity * 0.6 + min 100 (textureVariance / 50) * 0.4

/-- `_select_best_method` (complexity measurement abstracted): lossy
images always take `'dct'`; lossless images take `'pvd'` exactly when
`complexity > 50 and data_size > 10000`, else `'lsb'`; audio, video and
unknown carriers fall through to the default `'lsb'` — no error is
raised for an unknown extension. -/
def selectBestMethod (suffix : String) (complexity : ℚ) (dataSize : Nat) :
    String :=
  match detectFileType suffix with
  | .lossyImage => "dct"
  | .losslessImage =>
      if complexity > 50 ∧ dataSize > 10000 then "pvd" else "lsb"
  | _ => "lsb"

/-! ## Claim C7 -/

/-- C7 counterexample: an unknown extension does not raise
`UnsupportedCarrierError` — `_select_best_method` classifies `.xyz` as
unknown and falls through to `'lsb'`. -/
theorem C7_counterexample :
    detectFileType ".xyz" = .unknown ∧
    selectBestMethod ".xyz" 0 0 = "lsb" :=
  ⟨rfl, rfl⟩

/-- C7 (amended): auto-selection classifies by extension (png/bmp/tiff
lossless, jpg/jpeg lossy, wav/flac audio, mp4/avi/mkv video, anything
else unknown); lossy images always select DCT; lossless images compute
`complexity = 0.6·edge_density + 0.4·min(100, variance/50)` and select
PVD exactly when `complexity > 50` and the secret exceeds 10000 bytes,
else LSB; audio, video and unknown carriers select LSB — an unknown
extension does not raise. -/
theorem C7_amended :
    (detectFileType ".png" = .losslessImage ∧
     detectFileType ".bmp" = .losslessImage ∧
     detectFileType ".tiff" = .losslessImage ∧
     detectFileType ".jpg" = .lossyImage ∧
     detectFileType ".jpeg" = .lossyImage ∧
     detectFileType ".wav" = .audio ∧
     detectFileType ".flac" = .audio ∧
     detectFileType ".mp4" = .video ∧
     detectFileType ".avi" = .video ∧
     detectFileType ".mkv" = .video) ∧
    (∀ (s : String) (c : ℚ) (n : Nat),
      detectFileType s = .lossyImage → selectBestMethod s c n = "dct") ∧
    (∀ (s : String) (c : ℚ) (n : Nat), detectFileType s = .losslessImage →
      (c > 50 ∧ n > 10000 → selectBestMethod s c n = "pvd") ∧
      (¬ (c > 50 ∧ n > 10000) → selectBestMethod s c n = "lsb")) ∧
    (∀ (s : String) (c : ℚ) (n : Nat),
      detectFileType s = .audio ∨ detectFileType s = .video ∨
        detectFileType s = .unknown →
      selectBestMethod s c n = "lsb") ∧
    (∀ edgeDensity variance : ℚ,
      analyzeImageComplexity edgeDensity variance
        = 0.6 * edgeDensity + 0.4 * min 100 (variance / 50)) := by
  refine ⟨?_, ?_, ?_, ?_, ?_⟩
  · exact ⟨rfl, rfl, rfl, rfl, rfl, rfl, rfl, rfl, rfl, rfl⟩
  · intro s c n h
    simp only [selectBestMethod, h]
  · intro s c n h
    constructor
    · intro hc
      simp only [selectBestMethod, h, if_pos hc]
    · intro hc
      simp only [selectBestMethod, h, if_neg hc]
  · intro s c n h
    rcases h with h | h | h <;> simp only [selectBestMethod, h]
  · intro e v
    simp only [analyzeImageComplexity]
    ring

/-- C7 witness: the amended selection at concrete inputs — a JPEG picks
DCT, a complex large-payload PNG picks PVD, a smooth PNG picks LSB, and
a WAV picks LSB. -/
theorem C7_witness :
    selectBestMethod ".jpg" 0 0 = "dct" ∧
    selectBestMethod ".png" 80 20000 = "pvd" ∧
    selectBestMethod ".png" 10 20000 = "lsb" ∧
    selectBestMethod ".wav" 80 20000 = "lsb" :=
  ⟨C7_amended.2.1 ".jpg" 0 0 (by decide),
   (C7_amended.2.2.1 ".png" 80 20000 (by decide)).1 (by norm_num),
   (C7_amended.2.2.1 ".png" 10 20000 (by decide)).2 (by norm_num),
   C7_amended.2.2.2.1 ".wav" 80 20000 (Or.inl (by decide))⟩

/-! ## RiskScorer (`src/steganalysis/risk_scoring.py` and `src/config.py`)

`RiskScorer.__init__` starts from the built-in threshold dict
`{low: 30, medium: 60, high: 80}` and then applies
`self.thresholds.update(settings.get("risk_thresholds", {}))` with
`ANALYSIS_SETTINGS["risk_thresholds"] = {low: 25, medium: 50, high: 75}`
from `config.py`, so the constructed scorer runs with 25/50/75.
Thresholds are kept as an association list to model the dicts. -/

/-- `config.ANALYSIS_SETTINGS["risk_thresholds"]`. -/
def configRiskThresholds : List (String × ℚ) :=
  [("low", 25), ("medium", 50), ("high", 75)]

/-- The scorer's built-in defaults (risk_scoring.py lines 28–32). -/
def defaultRiskThresholds : List (String × ℚ) :=
  [("low", 30), ("medium", 60), ("high", 80)]

/-- Python `dict.update`: overriding keys replace, new keys append. -/
def dictUpdate (base override : List (String × ℚ)) : List (String × ℚ) :=
  base.map (fun kv =>
    match override.find? (fun kv2 => kv2.1 == kv.1) with
    | some kv2 => kv2
    | none => kv)
  ++ override.filter (fun kv2 => !(base.any (fun kv => kv.1 == kv2.1)))

/-- The thresholds dict held by a constructed `RiskScorer`. -/
def scorerThresholds : List (String × ℚ) :=
  dictUpdate defaultRiskThresholds configRiskThresholds

/-- `self.thresholds[key]` (all three keys are always present). -/
def thresholdLookup (t : List (String × ℚ)) (k : String) : ℚ :=
  match t.find? (fun kv => kv.1 == k) with
  | some kv => kv.2
  | none => 0

/-- `RiskAssessment` levels. -/
inductive RiskLevel where
  | LOW
  | MEDIUM
  | HIGH
  | CRITICAL
  deriving DecidableEq, Repr

/-- `RiskScorer._determine_level`. -/
def determineLevel (t : List (String × ℚ)) (score : ℚ) : RiskLevel :=
  if score < thresholdLookup t "low" then .LOW
  else if score < thresholdLookup t "medium" then .MEDIUM
  else if score < thresholdLookup t "high" then .HIGH
  else .CRITICAL

/-! ## Claim C8 -/

/-- C8 counterexample: the constructed scorer does not run with the
claimed canonical defaults 30/60/80 — `config.py` overrides them to
25/50/75, so score 27 maps to MEDIUM where the claim's thresholds would
give LOW (27 < 30). -/
theorem C8_counterexample :
    thresholdLookup scorerThresholds "low" = 25 ∧
    determineLevel scorerThresholds 27 = .MEDIUM := by
  constructor
  · rfl
  · decide

/-- C8 (amended): the level mapping is the claimed piecewise comparison
(`score < low → LOW`, `low ≤ score < medium → MEDIUM`, `medium ≤ score <
high → HIGH`, `high ≤ score → CRITICAL`) for any ordered thresholds, but
the constructed scorer's thresholds are the `config.py` overrides
low=25, medium=50, high=75; the built-in 30/60/80 only applies when the
config supplies none. -/
theorem C8_amended :
    (thresholdLookup scorerThresholds "low" = 25 ∧
     thresholdLookup scorerThresholds "medium" = 50 ∧
     thresholdLookup scorerThresholds "high" = 75) ∧
    (thresholdLookup defaultRiskThresholds "low" = 30 ∧
     thresholdLookup defaultRiskThresholds "medium" = 60 ∧
     thresholdLookup defaultRiskThresholds "high" = 80) ∧
    (∀ (t : List (String × ℚ)) (score : ℚ),
      thresholdLookup t "low" ≤ thresholdLookup t "medium" →
      thresholdLookup t "medium" ≤ thresholdLookup t "high" →
      (score < thresholdLookup t "low" → determineLevel t score = .LOW) ∧
      (thresholdLookup t "low" ≤ score →
        score < thresholdLookup t "medium" →
        determineLevel t score = .MEDIUM) ∧
      (thresholdLookup t "medium" ≤ score →
        score < thresholdLookup t "high" →
        determineLevel t score = .HIGH) ∧
      (thresholdLookup t "high" ≤ score →
        determineLevel t score = .CRITICAL)) := by
  refine ⟨⟨rfl, rfl, rfl⟩, ⟨rfl, rfl, rfl⟩, ?_⟩
  intro t score hlm hmh
  refine ⟨?_, ?_, ?_, ?_⟩
  · intro h
    simp only [determineLevel, if_pos h]
  · intro h1 h2
    simp only [determineLevel]
    rw [if_neg (not_lt.mpr h1), if_pos h2]
  · intro h1 h2
    simp only [determineLevel]
    rw [if_neg (not_lt.mpr (hlm.trans h1)), if_neg (not_lt.mpr h1), if_pos h2]
  · intro h1
    simp only [determineLevel]
    rw [if_neg (not_lt.mpr ((hlm.trans hmh).trans h1)),
      if_neg (not_lt.mpr (hmh.trans h1)), if_neg (not_lt.mpr h1)]

/-- C8 witness: the constructed scorer's mapping at concrete scores —
10 ↦ LOW, 27 ↦ MEDIUM (LOW under the claimed 30/60/80), 60 ↦ HIGH,
90 ↦ CRITICAL. -/
theorem C8_witness :
    determineLevel scorerThresholds 10 = .LOW ∧
    determineLevel scorerThresholds 27 = .MEDIUM ∧
    determineLevel scorerThresholds 60 = .HIGH ∧
    determineLevel scorerThresholds 90 = .CRITICAL :=
  ⟨(C8_amended.2.2 scorerThresholds 10 (by decide) (by decide)).1 (by decide),
   (C8_amended.2.2 scorerThresholds 27 (by decide) (by decide)).2.1
     (by decide) (by decide),
   (C8_amended.2.2 scorerThresholds 60 (by decide) (by decide)).2.2.1
     (by decide) (by decide),
   (C8_amended.2.2 scorerThresholds 90 (by decide) (by decide)).2.2.2
     (by decide)⟩

/-! ## JPEG DCT parity write rule (`src/steganography/jpeg_dct.py`)

`_apply_parity` receives a float DCT coefficient; its first step is
`integer_value = int(round(value))` and everything after is integer
logic, modelled here on the rounded value.  Python's `x & 1` on a
negative int is the two's-complement low bit, i.e. `x % 2` with
`Int.emod`; extraction reads `int(round(coeff)) & 1`. -/

/-- `_apply_parity` after rounding (`bit` is 0 or 1; Python's
`1 if bit else -1` tests truthiness, i.e. `bit ≠ 0`). -/
def applyParity (integerValue : Int) (bit : Nat) : Int :=
  let v1 := if integerValue = 0 then 1 else integerValue
  if v1 % 2 ≠ (bit : Int) then
    let v2 := if v1 > 0 then (if bit ≠ 0 then v1 + 1 else v1 - 1) else v1 - 1
    if v2 = 0 then (if bit ≠ 0 then 1 else -1) else v2
  else v1

/-! ## Claim C9 -/

/-- C9: the write rule is broken exactly at coefficients rounding to 0 or
1 with target bit 0 — `_apply_parity` stores −1, whose low bit is 1, so
extraction reads 1 where 0 was embedded.  The value is indeed never left
at zero, and for every other input (negative values, values ≥ 2, or
target bit 1) the stored parity does equal the target bit. -/
theorem C9_parity_bug :
    applyParity 1 0 = -1 ∧ applyParity 0 0 = -1 ∧ (-1 : Int) % 2 = 1 ∧
    (∀ (v : Int) (bit : Nat), bit < 2 → applyParity v bit ≠ 0) ∧
    (∀ (v : Int) (bit : Nat), bit < 2 → (v ≤ -1 ∨ 2 ≤ v ∨ bit = 1) →
      applyParity v bit % 2 = bit) := by
  refine ⟨by decide, by decide, by decide, ?_, ?_⟩
  · intro v bit hb
    simp only [applyParity]
    split_ifs <;> omega
  · intro v bit hb hside
    simp only [applyParity]
    split_ifs <;> omega

/-- C9 witness: the corrected behaviour away from the broken corner — the
coefficient 5 with target bit 0 is stored as 4 (parity 0), and −2 with
target bit 1 is stored with parity 1 — while `applyParity 1 0 = -1`
exhibits the bug. -/
theorem C9_witness :
    applyParity 5 0 % 2 = 0 ∧ applyParity (-2) 1 % 2 = 1 ∧
    applyParity 7 1 ≠ 0 :=
  ⟨(C9_parity_bug.2.2.2.2 5 0 (by decide) (by decide)),
   (C9_parity_bug.2.2.2.2 (-2) 1 (by decide) (by decide)),
   (C9_parity_bug.2.2.2.1 7 1 (by decide))⟩

/-! ## CRC32 (`zlib.crc32`, used by appender.py and png_chunk.py)

The standard reflected CRC-32 that `zlib.crc32` tables: the state starts
at `0xFFFFFFFF`; each byte is xored into the state and followed by eight
rounds of `s ↦ (s >> 1) ^^^ (0xEDB88320 if s & 1 else 0)`; the final
state is xored with `0xFFFFFFFF`. -/

/-- The reflected CRC-32 polynomial. -/
def crcPoly : Nat := 0xEDB88320

/-- One bit round. -/
def crcRound (s : Nat) : Nat :=
  if s % 2 = 1 then s / 2 ^^^ crcPoly else s / 2

/-- The eight bit rounds of one byte. -/
def crcRounds : Nat → Nat → Nat
  | 0, s => s
  | n + 1, s => crcRounds n (crcRound s)

/-- Absorb one byte. -/
def crcByteStep (s b : Nat) : Nat := crcRounds 8 (s ^^^ b)

/-- Absorb a byte string. -/
def crcProcess (s : Nat) (bytes : List Nat) : Nat :=
  bytes.foldl crcByteStep s

/-- `zlib.crc32(bytes) & 0xFFFFFFFF`. -/
def crc32 (bytes : List Nat) : Nat :=
  crcProcess 0xFFFFFFFF bytes ^^^ 0xFFFFFFFF

/-! ### CRC32 is injective in the state, hence detects single-byte edits -/

theorem crcRound_lt {s : Nat} (h : s < 2 ^ 32) : crcRound s < 2 ^ 32 := by
  unfold crcRound
  split_ifs
  · exact Nat.xor_lt_two_pow (by omega) (by norm_num [crcPoly])
  · omega

theorem xor_crcPoly_ge {a : Nat} (ha : a < 2 ^ 31) : 2 ^ 31 ≤ a ^^^ crcPoly := by
  apply Nat.testBit_implies_ge
  rw [Nat.testBit_xor, Nat.testBit_lt_two_pow ha]
  decide

/-- Explicit inverse of a bit round on 32-bit states. -/
def crcRoundInv (s : Nat) : Nat :=
  if 2 ^ 31 ≤ s then (s ^^^ crcPoly) * 2 + 1 else s * 2

theorem crcRoundInv_leftInv {s : Nat} (h : s < 2 ^ 32) :
    crcRoundInv (crcRound s) = s := by
  unfold crcRound crcRoundInv
  by_cases hodd : s % 2 = 1
  · rw [if_pos hodd, if_pos (xor_crcPoly_ge (by omega))]
    rw [Nat.xor_cancel_right]
    omega
  · rw [if_neg hodd, if_neg (by omega)]
    omega

theorem crcRound_inj {s t : Nat} (hs : s < 2 ^ 32) (ht : t < 2 ^ 32)
    (h : crcRound s = crcRound t) : s = t := by
  rw [← crcRoundInv_leftInv hs, ← crcRoundInv_leftInv ht, h]

theorem crcRounds_lt : ∀ (n : Nat) {s : Nat}, s < 2 ^ 32 →
    crcRounds n s < 2 ^ 32 := by
  intro n
  induction n with
  | zero => intro s h; exact h
  | succ k ih => intro s h; exact ih (crcRound_lt h)

theorem crcRounds_inj : ∀ (n : Nat) {s t : Nat}, s < 2 ^ 32 → t < 2 ^ 32 →
    crcRounds n s = crcRounds n t → s = t := by
  intro n
  induction n with
  | zero => intro s t _ _ h; exact h
  | succ k ih =>
      intro s t hs ht h
      exact crcRound_inj hs ht (ih (crcRound_lt hs) (crcRound_lt ht) h)

theorem crcByteStep_lt {s b : Nat} (hs : s < 2 ^ 32) (hb : b < 256) :
    crcByteStep s b < 2 ^ 32 :=
  crcRounds_lt 8 (Nat.xor_lt_two_pow hs (by omega))

theorem crcByteStep_inj {s t b : Nat} (hs : s < 2 ^ 32) (ht : t < 2 ^ 32)
    (hb : b < 256) (h : crcByteStep s b = crcByteStep t b) : s = t := by
  have := crcRounds_inj 8 (Nat.xor_lt_two_pow hs (by omega))
    (Nat.xor_lt_two_pow ht (by omega)) h
  calc s = s ^^^ b ^^^ b := (Nat.xor_cancel_right _ _).symm
  _ = t ^^^ b ^^^ b := by rw [this]
  _ = t := Nat.xor_cancel_right _ _

theorem crcByteStep_ne {s b b' : Nat} (hb : b < 256) (hb' : b' < 256)
    (hne : b ≠ b') (hs : s < 2 ^ 32) :
    crcByteStep s b ≠ crcByteStep s b' := by
  intro h
  apply hne
  have := crcRounds_inj 8 (Nat.xor_lt_two_pow hs (by omega))
    (Nat.xor_lt_two_pow hs (by omega)) h
  calc b = s ^^^ (s ^^^ b) := by rw [← Nat.xor_assoc, Nat.xor_self, Nat.zero_xor]
  _ = s ^^^ (s ^^^ b') := by rw [this]
  _ = b' := by rw [← Nat.xor_assoc, Nat.xor_self, Nat.zero_xor]

theorem crcProcess_lt : ∀ (bytes : List Nat) {s : Nat}, s < 2 ^ 32 →
    (∀ b ∈ bytes, b < 256) → crcProcess s bytes < 2 ^ 32 := by
  intro bytes
  induction bytes with
  | nil => intro s h _; exact h
  | cons b bs ih =>
      intro s h hb
      exact ih (crcByteStep_lt h (hb b (by simp)))
        (fun x hx => hb x (by simp [hx]))

theorem crcProcess_inj : ∀ (bytes : List Nat) {s t : Nat}, s < 2 ^ 32 →
    t < 2 ^ 32 → (∀ b ∈ bytes, b < 256) → s ≠ t →
    crcProcess s bytes ≠ crcProcess t bytes := by
  intro bytes
  induction bytes with
  | nil => intro s t _ _ _ hne; exact hne
  | cons b bs ih =>
      intro s t hs ht hb hne
      apply ih (crcByteStep_lt hs (hb b (by simp)))
        (crcByteStep_lt ht (hb b (by simp)))
        (fun x hx => hb x (by simp [hx]))
      intro h
      exact hne (crcByteStep_inj hs ht (hb b (by simp)) h)

/-- Changing exactly one byte of a byte string changes its CRC32. -/
theorem crc32_set_ne (p : List Nat) (i b' : Nat) (hi : i < p.length)
    (hb : ∀ x ∈ p, x < 256) (hb' : b' < 256) (hne : b' ≠ p.getD i 0) :
    crc32 (p.set i b') ≠ crc32 p := by
  intro h
  have hproc : crcProcess 0xFFFFFFFF (p.set i b')
      = crcProcess 0xFFFFFFFF p := by
    have := congrArg (fun x => x ^^^ 0xFFFFFFFF) h
    simpa only [crc32, Nat.xor_cancel_right] using this
  have hsplit : p = p.take i ++ p.getD i 0 :: p.drop (i + 1) := by
    conv_lhs => rw [← List.take_append_drop i p]
    rw [List.drop_eq_getElem_cons hi, List.getD_eq_getElem _ _ hi]
  have hset : p.set i b' = p.take i ++ b' :: p.drop (i + 1) := by
    conv_lhs => rw [hsplit]
    rw [List.set_append_right _ _ (by simp only [List.length_take]; omega)]
    have hlen : i - (p.take i).length = 0 := by
      simp only [List.length_take]
      omega
    rw [hlen]
    rfl
  have hmem : p.getD i 0 ∈ p := by
    rw [List.getD_eq_getElem _ _ hi]
    exact List.getElem_mem _
  have hpre : ∀ x ∈ p.take i, x < 256 :=
    fun x hx => hb x (List.mem_of_mem_take hx)
  have hsuf : ∀ x ∈ p.drop (i + 1), x < 256 :=
    fun x hx => hb x (List.mem_of_mem_drop hx)
  have hs0 : crcProcess 0xFFFFFFFF (p.take i) < 2 ^ 32 :=
    crcProcess_lt _ (by norm_num) hpre
  rw [hset] at hproc
  conv_rhs at hproc => rw [hsplit]
  simp only [crcProcess, List.foldl_append, List.foldl_cons] at hproc
  exact crcProcess_inj (p.drop (i + 1))
    (crcByteStep_lt hs0 hb')
    (crcByteStep_lt hs0 (hb _ hmem))
    hsuf
    (crcByteStep_ne hb' (hb _ hmem) hne hs0)
    hproc

/-! ## Tail-append (`src/steganography/appender.py`)

Cover and stego files are byte lists.  The trailer is
`MARKER ‖ struct.pack(">BQHI", 1, len(payload), len(name), crc32(payload))
‖ name ‖ payload`; `_parse_trailer` locates the marker with `rfind` (the
LAST occurrence), re-reads the header fields, and verifies the CRC.
The UTF-8 decode of the stored filename is kept as raw bytes here. -/

/-- `APPEND_MARKER = b"STEGOSIGHT::APPEND::V1"`. -/
def APPEND_MARKER : List Nat :=
  [83, 84, 69, 71, 79, 83, 73, 71, 72, 84, 58, 58,
   65, 80, 80, 69, 78, 68, 58, 58, 86, 49]

/-- Big-endian `Q` (8 bytes). -/
def natToBE8 (n : Nat) : List Nat :=
  [n / 2 ^ 56 % 256, n / 2 ^ 48 % 256, n / 2 ^ 40 % 256, n / 2 ^ 32 % 256,
   n / 2 ^ 24 % 256, n / 2 ^ 16 % 256, n / 2 ^ 8 % 256, n % 256]

/-- Big-endian `H` (2 bytes). -/
def natToBE2 (n : Nat) : List Nat :=
  [n / 2 ^ 8 % 256, n % 256]

/-- Big-endian decode (`struct.unpack` of `Q`/`H`/`I` fields). -/
def beToNat (bs : List Nat) : Nat :=
  bs.foldl (fun a b => 256 * a + b) 0

/-- `_build_trailer`: marker, `>BQHI` header, filename bytes, payload. -/
def buildTrailer (payload filename : List Nat) : List Nat :=
  APPEND_MARKER ++ [1] ++ natToBE8 payload.length
    ++ natToBE2 filename.length ++ natToBE4 (crc32 payload)
    ++ filename ++ payload

/-- `append_payload_to_file` on byte lists. -/
def appendPayloadToFile (cover payload filename : List Nat) : List Nat :=
  cover ++ buildTrailer payload filename

/-- `bytes.rfind(marker)`: start index of the LAST occurrence. -/
def listRfind (data marker : List Nat) : Option Nat :=
  ((List.range (data.length + 1)).filter
    (fun i => (data.drop i).take marker.length == marker)).getLast?

/-- `AppendedPayload` (the filename kept as raw bytes). -/
structure AppendedPayload where
  data : List Nat
  filenameBytes : List Nat
  checksum : Nat
  version : Nat
  payloadLength : Nat
  deriving DecidableEq, Repr

/-- `_parse_trailer`: `rfind` the marker, bounds-check and decode the
`>BQHI` header, slice name and payload, and require the stored CRC to
match `crc32(payload)`. -/
def parseTrailer (data : List Nat) : Except StegoError AppendedPayload :=
  match listRfind data APPEND_MARKER with
  | none => .error .corruptPayload
  | some markerIndex =>
    let headerStart := markerIndex + APPEND_MARKER.length
    let headerEnd := headerStart + 15
    if headerEnd > data.length then .error .corruptPayload
    else
      let version := data.getD headerStart 0
      let payloadLength := beToNat ((data.drop (headerStart + 1)).take 8)
      let nameLength := beToNat ((data.drop (headerStart + 9)).take 2)
      let checksum := beToNat ((data.drop (headerStart + 11)).take 4)
      if version ≠ 1 then .error .corruptPayload
      else
        let nameStart := headerEnd
        let payloadStart := nameStart + nameLength
        let payloadEnd := payloadStart + payloadLength
        if payloadEnd > data.length then .error .corruptPayload
        else
          let filenameBytes := (data.drop nameStart).take nameLength
          let payloadBytes := (data.drop payloadStart).take payloadLength
          if crc32 payloadBytes ≠ checksum then .error .checksumMismatch
          else .ok ⟨payloadBytes, filenameBytes, checksum, version,
            payloadLength⟩

/-- `has_appended_payload`: parse succeeds. -/
def hasAppendedPayload (data : List Nat) : Bool :=
  match parseTrailer data with
  | .ok _ => true
  | .error _ => false

/-! ### Append-trailer parsing lemmas -/

theorem beToNat_natToBE8 {n : Nat} (h : n < 2 ^ 64) :
    beToNat (natToBE8 n) = n := by
  simp only [beToNat, natToBE8, List.foldl_cons, List.foldl_nil]
  omega

theorem beToNat_natToBE2 {n : Nat} (h : n < 2 ^ 16) :
    beToNat (natToBE2 n) = n := by
  simp only [beToNat, natToBE2, List.foldl_cons, List.foldl_nil]
  omega

theorem beToNat_natToBE4 {n : Nat} (h : n < 2 ^ 32) :
    beToNat (natToBE4 n) = n := by
  simp only [beToNat, natToBE4, List.foldl_cons, List.foldl_nil]
  omega

theorem crc32_lt (bytes : List Nat) (h : ∀ b ∈ bytes, b < 256) :
    crc32 bytes < 2 ^ 32 :=
  Nat.xor_lt_two_pow (crcProcess_lt _ (by norm_num) h) (by norm_num)

theorem getD_of_drop_cons {l : List Nat} {n x : Nat} {xs : List Nat}
    (h : l.drop n = x :: xs) : l.getD n 0 = x := by
  have h0 : (l.drop n)[0]? = some x := by
    rw [h, List.getElem?_cons_zero]
  rw [List.getElem?_drop] at h0
  simp only [Nat.add_zero] at h0
  rw [List.getD_eq_getElem?_getD, h0]
  rfl

theorem drop_shift (l : List Nat) (n k m : Nat) (xs ys : List Nat)
    (h : l.drop n = xs ++ ys) (hk : xs.length = k) (hm : m = n + k) :
    l.drop m = ys := by
  rw [hm, ← List.drop_drop, h, List.drop_left' hk]

theorem parseTrailer_structured (cover pl fn : List Nat) (crcv : Nat)
    (hplen : pl.length < 2 ^ 64) (hnlen : fn.length < 2 ^ 16)
    (hcrc : crcv < 2 ^ 32)
    (hrfind : listRfind (cover ++ (APPEND_MARKER ++ [1] ++ natToBE8 pl.length
      ++ natToBE2 fn.length ++ natToBE4 crcv ++ fn ++ pl)) APPEND_MARKER
      = some cover.length) :
    parseTrailer (cover ++ (APPEND_MARKER ++ [1] ++ natToBE8 pl.length
      ++ natToBE2 fn.length ++ natToBE4 crcv ++ fn ++ pl))
      = if crc32 pl ≠ crcv then .error .checksumMismatch
        else .ok ⟨pl, fn, crcv, 1, pl.length⟩ := by
  have hM : APPEND_MARKER.length = 22 := rfl
  have hbe8 : (natToBE8 pl.length).length = 8 := rfl
  have hbe2 : (natToBE2 fn.length).length = 2 := rfl
  have hbe4 : (natToBE4 crcv).length = 4 := rfl
  have hdrop0 : (cover ++ (APPEND_MARKER ++ [1] ++ natToBE8 pl.length
      ++ natToBE2 fn.length ++ natToBE4 crcv ++ fn ++ pl)).drop cover.length
      = APPEND_MARKER ++ ([1] ++ (natToBE8 pl.length ++ (natToBE2 fn.length
        ++ (natToBE4 crcv ++ (fn ++ pl))))) := by
    rw [List.drop_left]
    simp only [List.append_assoc]
  have dA := drop_shift _ cover.length 22 (cover.length + 22) APPEND_MARKER
    ([1] ++ (natToBE8 pl.length ++ (natToBE2 fn.length
      ++ (natToBE4 crcv ++ (fn ++ pl))))) hdrop0 hM rfl
  have dB := drop_shift _ (cover.length + 22) 1 (cover.length + 22 + 1)
    [1] (natToBE8 pl.length ++ (natToBE2 fn.length
      ++ (natToBE4 crcv ++ (fn ++ pl)))) dA rfl rfl
  have dC := drop_shift _ (cover.length + 22 + 1) 8 (cover.length + 22 + 9)
    (natToBE8 pl.length) (natToBE2 fn.length ++ (natToBE4 crcv ++ (fn ++ pl)))
    dB hbe8 (by omega)
  have dD := drop_shift _ (cover.length + 22 + 9) 2 (cover.length + 22 + 11)
    (natToBE2 fn.length) (natToBE4 crcv ++ (fn ++ pl)) dC hbe2 (by omega)
  have dE := drop_shift _ (cover.length + 22 + 11) 4 (cover.length + 22 + 15)
    (natToBE4 crcv) (fn ++ pl) dD hbe4 (by omega)
  have dF := drop_shift _ (cover.length + 22 + 15) fn.length
    (cover.length + 22 + 15 + fn.length) fn pl dE rfl rfl
  have hlen : (cover ++ (APPEND_MARKER ++ [1] ++ natToBE8 pl.length
      ++ natToBE2 fn.length ++ natToBE4 crcv ++ fn ++ pl)).length
      = cover.length + 37 + fn.length + pl.length := by
    simp only [List.length_append, hM, hbe8, hbe2, hbe4, List.length_cons,
      List.length_nil]
    omega
  have hver : (cover ++ (APPEND_MARKER ++ [1] ++ natToBE8 pl.length
      ++ natToBE2 fn.length ++ natToBE4 crcv ++ fn ++ pl)).getD
      (cover.length + 22) 0 = 1 := getD_of_drop_cons dA
  simp only [parseTrailer, hrfind, hM]
  rw [if_neg (by omega)]
  rw [hver]
  rw [if_neg (by omega)]
  rw [dB, List.take_left' hbe8, beToNat_natToBE8 hplen]
  rw [dC, List.take_left' hbe2, beToNat_natToBE2 hnlen]
  rw [dD, List.take_left' hbe4, beToNat_natToBE4 hcrc]
  rw [if_neg (by omega)]
  rw [dE, List.take_left fn pl]
  rw [dF, List.take_length]

theorem appendStego_set (cover payload filename : List Nat) (i b' : Nat) :
    (appendPayloadToFile cover payload filename).set
      (cover.length + 37 + filename.length + i) b'
      = cover ++ (APPEND_MARKER ++ [1] ++ natToBE8 payload.length
        ++ natToBE2 filename.length ++ natToBE4 (crc32 payload)
        ++ filename ++ payload.set i b') := by
  have hZ : (APPEND_MARKER ++ [1] ++ natToBE8 payload.length
      ++ natToBE2 filename.length ++ natToBE4 (crc32 payload)
      ++ filename).length = 37 + filename.length := by
    simp only [List.length_append, List.length_cons, List.length_nil]
    have h1 : APPEND_MARKER.length = 22 := rfl
    have h2 : (natToBE8 payload.length).length = 8 := rfl
    have h3 : (natToBE2 filename.length).length = 2 := rfl
    have h4 : (natToBE4 (crc32 payload)).length = 4 := rfl
    omega
  simp only [appendPayloadToFile, buildTrailer]
  rw [List.set_append_right _ _ (by omega)]
  congr 1
  rw [show cover.length + 37 + filename.length + i - cover.length
      = 37 + filename.length + i from by omega]
  rw [List.set_append_right _ _ (by rw [hZ]; omega)]
  rw [hZ]
  rw [show 37 + filename.length + i - (37 + filename.length) = i from by omega]

theorem parseTrailer_appended (cover payload filename : List Nat)
    (hpl256 : ∀ x ∈ payload, x < 256)
    (hplen : payload.length < 2 ^ 64) (hnlen : filename.length < 2 ^ 16)
    (hrfind : listRfind (appendPayloadToFile cover payload filename)
      APPEND_MARKER = some cover.length) :
    parseTrailer (appendPayloadToFile cover payload filename)
      = .ok ⟨payload, filename, crc32 payload, 1, payload.length⟩ ∧
    hasAppendedPayload (appendPayloadToFile cover payload filename) = true := by
  simp only [appendPayloadToFile, buildTrailer] at hrfind ⊢
  have hparse := parseTrailer_structured cover payload filename (crc32 payload)
    hplen hnlen (crc32_lt payload hpl256) hrfind
  rw [if_neg (by simp)] at hparse
  refine ⟨hparse, ?_⟩
  simp only [hasAppendedPayload, hparse]

theorem parseTrailer_flipped (cover payload filename : List Nat) (i b' : Nat)
    (hi : i < payload.length)
    (hpl256 : ∀ x ∈ payload, x < 256) (hb' : b' < 256)
    (hne : b' ≠ payload.getD i 0)
    (hplen : payload.length < 2 ^ 64) (hnlen : filename.length < 2 ^ 16)
    (hrfind : listRfind ((appendPayloadToFile cover payload filename).set
      (cover.length + 37 + filename.length + i) b') APPEND_MARKER
      = some cover.length) :
    parseTrailer ((appendPayloadToFile cover payload filename).set
      (cover.length + 37 + filename.length + i) b')
      = .error .checksumMismatch := by
  rw [appendStego_set] at hrfind ⊢
  have hlenset : payload.length = (payload.set i b').length :=
    (List.length_set _ _ _).symm
  rw [hlenset] at hrfind ⊢
  have hparse := parseTrailer_structured cover (payload.set i b') filename
    (crc32 payload) (by rw [← hlenset]; exact hplen) hnlen
    (crc32_lt payload hpl256) hrfind
  rw [if_pos (crc32_set_ne payload i b' hi hpl256 hb' hne)] at hparse
  exact hparse

/-! ## PNG custom chunk (`src/steganography/png_chunk.py`)

PNG files are byte lists.  `_iter_chunks` walks `LEN(4, BE) ‖ TYPE(4) ‖
DATA ‖ CRC(4)` records after the 8-byte signature and stops at `IEND`,
validating bounds as it goes; the recursion is fueled (every step
consumes ≥ 12 bytes, so `data.length + 1` fuel can never run out on an
accepted file).  The Python generator is lazy; on the well-formed files
treated by the claims the eager model coincides.  The stored filename is
kept as raw bytes (`.decode("utf-8")` omitted). -/

/-- `PNG_SIGNATURE = b"\x89PNG\r\n\x1a\n"`. -/
def PNG_SIGNATURE : List Nat := [137, 80, 78, 71, 13, 10, 26, 10]

/-- `b"IEND"`. -/
def IEND_TYPE : List Nat := [73, 69, 78, 68]

/-- `_DEFAULT_CHUNK_TYPE = b"stGO"`. -/
def DEFAULT_CHUNK_TYPE : List Nat := [115, 116, 71, 79]

/-- `PNGChunkInfo` tuples `(type, chunk_start, length, data_start,
data_end, crc)`. -/
structure PNGChunkInfo where
  chunkType : List Nat
  chunkStart : Nat
  length : Nat
  dataStart : Nat
  dataEnd : Nat
  crc : Nat
  deriving DecidableEq, Repr

/-- The chunk walk of `_iter_chunks` (past the signature). -/
def iterChunksAux (data : List Nat) : Nat → Nat →
    Except StegoError (List PNGChunkInfo)
  | _, 0 => .error .corruptPayload
  | offset, fuel + 1 =>
    if offset + 8 ≤ data.length then
      let len := beToNat ((data.drop offset).take 4)
      let ctype := (data.drop (offset + 4)).take 4
      let dataStart := offset + 8
      let dataEnd := dataStart + len
      if dataEnd > data.length then .error .corruptPayload
      else if dataEnd + 4 > data.length then .error .corruptPayload
      else
        let crcv := beToNat ((data.drop dataEnd).take 4)
        let info : PNGChunkInfo := ⟨ctype, offset, len, dataStart, dataEnd, crcv⟩
        if ctype = IEND_TYPE then .ok [info]
        else
          match iterChunksAux data (dataEnd + 4) fuel with
          | .ok rest => .ok (info :: rest)
          | .error e => .error e
    else .error .corruptPayload

/-- `_iter_chunks`: check the signature, then walk the chunks. -/
def iterChunks (data : List Nat) : Except StegoError (List PNGChunkInfo) :=
  if data.take 8 = PNG_SIGNATURE then iterChunksAux data 8 (data.length + 1)
  else .error .invalidInput

/-- `_find_chunk`: first chunk of the wanted type. -/
def findChunk (data target : List Nat) :
    Except StegoError (Option PNGChunkInfo) :=
  match iterChunks data with
  | .error e => .error e
  | .ok chunks => .ok (chunks.find? (fun c => c.chunkType == target))

/-- `_validate_chunk_type`: 4 alphabetic ASCII bytes, first lowercase. -/
def validateChunkType (ct : List Nat) : Bool :=
  ct.length == 4
  && ct.all (fun c => (65 ≤ c && c ≤ 90) || (97 ≤ c && c ≤ 122))
  && (97 ≤ ct.headD 0 && ct.headD 0 ≤ 122)

/-- `_build_chunk`: `LEN ‖ TYPE ‖ DATA ‖ CRC(TYPE ‖ DATA)`. -/
def buildChunk (chunkType payload : List Nat) : List Nat :=
  natToBE4 payload.length ++ chunkType ++ payload
    ++ natToBE4 (crc32 (chunkType ++ payload))

/-- `embed_file_into_png_chunk` on byte lists: validate the type, locate
`IEND`, build `NAME_LEN ‖ NAME ‖ DATA` and insert the custom chunk at
`IEND`'s chunk start. -/
def embedFileIntoPngChunk (png payload filename chunkType : List Nat) :
    Except StegoError (List Nat) :=
  if ¬ validateChunkType chunkType then .error .invalidInput
  else match findChunk png IEND_TYPE with
  | .error e => .error e
  | .ok none => .error .corruptPayload
  | .ok (some iend) =>
      if filename.length > 0xFFFF then .error .invalidInput
      else
        .ok (png.take iend.chunkStart
          ++ buildChunk chunkType (natToBE2 filename.length ++ filename ++ payload)
          ++ png.drop iend.chunkStart)

/-- `extract_payload_from_png_chunk`: find the custom chunk, verify the
CRC, split `NAME_LEN ‖ NAME ‖ DATA`; returns `(name bytes, payload)`. -/
def extractPayloadFromPngChunk (png chunkType : List Nat) :
    Except StegoError (List Nat × List Nat) :=
  if ¬ validateChunkType chunkType then .error .invalidInput
  else match findChunk png chunkType with
  | .error e => .error e
  | .ok none => .error .corruptPayload
  | .ok (some info) =>
      let chunkData := (png.drop info.dataStart).take (info.dataEnd - info.dataStart)
      if crc32 (info.chunkType ++ chunkData) ≠ info.crc then
        .error .checksumMismatch
      else if chunkData.length < 2 then .error .corruptPayload
      else
        let filenameLen := beToNat (chunkData.take 2)
        if 2 + filenameLen > chunkData.length then .error .corruptPayload
        else .ok ((chunkData.drop 2).take filenameLen,
          chunkData.drop (2 + filenameLen))

/-! ### Well-formed chunk streams and what `_iter_chunks` does on them -/

/-- A chunk as raw content (type, data, stored crc). -/
structure RawChunk where
  chunkType : List Nat
  data : List Nat
  crc : Nat

/-- The chunk's on-disk bytes. -/
def rawChunkBytes (c : RawChunk) : List Nat :=
  natToBE4 c.data.length ++ c.chunkType ++ c.data ++ natToBE4 c.crc

/-- Well-formed: 4-byte type, encodable length and crc. -/
def WFChunk (c : RawChunk) : Prop :=
  c.chunkType.length = 4 ∧ c.data.length < 2 ^ 32 ∧ c.crc < 2 ^ 32

/-- The infos `_iter_chunks` reports for consecutive chunks from a given
offset. -/
def chunkInfosFrom : Nat → List RawChunk → List PNGChunkInfo
  | _, [] => []
  | offset, c :: cs =>
      ⟨c.chunkType, offset, c.data.length, offset + 8,
        offset + 8 + c.data.length, c.crc⟩
      :: chunkInfosFrom (offset + 12 + c.data.length) cs

theorem rawChunkBytes_length (c : RawChunk) (h4 : c.chunkType.length = 4) :
    (rawChunkBytes c).length = 12 + c.data.length := by
  simp only [rawChunkBytes, List.length_append, h4]
  have h1 : (natToBE4 c.data.length).length = 4 := rfl
  have h2 : (natToBE4 c.crc).length = 4 := rfl
  omega

theorem natToBE4_bytes_lt (n : Nat) : ∀ b ∈ natToBE4 n, b < 256 := by
  simp only [natToBE4, List.mem_cons, List.not_mem_nil, or_false]
  intro b hb
  rcases hb with h | h | h | h <;> omega

theorem natToBE2_bytes_lt (n : Nat) : ∀ b ∈ natToBE2 n, b < 256 := by
  simp only [natToBE2, List.mem_cons, List.not_mem_nil, or_false]
  intro b hb
  rcases hb with h | h <;> omega

theorem iterChunksAux_spec (data : List Nat) (iendData : List Nat)
    (iendCrc : Nat) (hIlen : iendData.length < 2 ^ 32)
    (hIcrc : iendCrc < 2 ^ 32) :
    ∀ (pre : List RawChunk) (offset fuel : Nat) (trailing : List Nat),
    (∀ c ∈ pre, WFChunk c ∧ c.chunkType ≠ IEND_TYPE) →
    data.drop offset
      = (pre.map rawChunkBytes).flatten
        ++ (rawChunkBytes ⟨IEND_TYPE, iendData, iendCrc⟩ ++ trailing) →
    offset ≤ data.length →
    pre.length < fuel →
    iterChunksAux data offset fuel
      = .ok (chunkInfosFrom offset (pre ++ [⟨IEND_TYPE, iendData, iendCrc⟩])) := by
  intro pre
  induction pre with
  | nil =>
    intro offset fuel trailing _ hdrop hoff hfuel
    obtain ⟨f, rfl⟩ : ∃ f, fuel = f + 1 := ⟨fuel - 1, by omega⟩
    simp only [List.map_nil, List.flatten_nil, List.nil_append] at hdrop
    have hbe1 : (natToBE4 iendData.length).length = 4 := rfl
    have hbe2 : (natToBE4 iendCrc).length = 4 := rfl
    have hI : IEND_TYPE.length = 4 := rfl
    have e0 : data.drop offset = natToBE4 iendData.length
        ++ (IEND_TYPE ++ (iendData ++ (natToBE4 iendCrc ++ trailing))) := by
      rw [hdrop]
      simp only [rawChunkBytes, List.append_assoc]
    have e1 := drop_shift _ offset 4 (offset + 4)
      (natToBE4 iendData.length)
      (IEND_TYPE ++ (iendData ++ (natToBE4 iendCrc ++ trailing))) e0 hbe1 rfl
    have e2 := drop_shift _ (offset + 4) 4 (offset + 8) IEND_TYPE
      (iendData ++ (natToBE4 iendCrc ++ trailing)) e1 hI rfl
    have e3 := drop_shift _ (offset + 8) iendData.length
      (offset + 8 + iendData.length) iendData
      (natToBE4 iendCrc ++ trailing) e2 rfl rfl
    have hL : data.length - offset
        = 12 + iendData.length + trailing.length := by
      have h0 := congrArg List.length e0
      simp only [List.length_drop, List.length_append, hbe1, hbe2, hI] at h0
      omega
    simp only [iterChunksAux]
    rw [if_pos (show offset + 8 ≤ data.length from by omega)]
    rw [e0, List.take_left' hbe1, beToNat_natToBE4 hIlen]
    rw [e1, List.take_left' hI]
    rw [if_neg (show ¬ (offset + 8 + iendData.length > data.length)
      from by omega)]
    rw [if_neg (show ¬ (offset + 8 + iendData.length + 4 > data.length)
      from by omega)]
    rw [e3, List.take_left' hbe2, beToNat_natToBE4 hIcrc]
    rw [if_pos rfl]
    simp only [List.nil_append, chunkInfosFrom]
  | cons c pre' ih =>
    intro offset fuel trailing hwf hdrop hoff hfuel
    obtain ⟨f, rfl⟩ : ∃ f, fuel = f + 1 := ⟨fuel - 1, by omega⟩
    obtain ⟨⟨hct4, hclen, hccrc⟩, hcne⟩ := hwf c (List.mem_cons_self _ _)
    have hwf' : ∀ x ∈ pre', WFChunk x ∧ x.chunkType ≠ IEND_TYPE :=
      fun x hx => hwf x (List.mem_cons_of_mem _ hx)
    have hbe1 : (natToBE4 c.data.length).length = 4 := rfl
    have hbe2 : (natToBE4 c.crc).length = 4 := rfl
    have hI : IEND_TYPE.length = 4 := rfl
    have e0 : data.drop offset = natToBE4 c.data.length
        ++ (c.chunkType ++ (c.data ++ (natToBE4 c.crc
          ++ ((pre'.map rawChunkBytes).flatten
            ++ (rawChunkBytes ⟨IEND_TYPE, iendData, iendCrc⟩
              ++ trailing))))) := by
      rw [hdrop]
      simp only [List.map_cons, List.flatten_cons, rawChunkBytes,
        List.append_assoc]
    have e1 := drop_shift _ offset 4 (offset + 4) (natToBE4 c.data.length)
      (c.chunkType ++ (c.data ++ (natToBE4 c.crc
        ++ ((pre'.map rawChunkBytes).flatten
          ++ (rawChunkBytes ⟨IEND_TYPE, iendData, iendCrc⟩ ++ trailing)))))
      e0 hbe1 rfl
    have e2 := drop_shift _ (offset + 4) 4 (offset + 8) c.chunkType
      (c.data ++ (natToBE4 c.crc ++ ((pre'.map rawChunkBytes).flatten
        ++ (rawChunkBytes ⟨IEND_TYPE, iendData, iendCrc⟩ ++ trailing))))
      e1 hct4 rfl
    have e3 := drop_shift _ (offset + 8) c.data.length
      (offset + 8 + c.data.length) c.data
      (natToBE4 c.crc ++ ((pre'.map rawChunkBytes).flatten
        ++ (rawChunkBytes ⟨IEND_TYPE, iendData, iendCrc⟩ ++ trailing)))
      e2 rfl rfl
    have e4 := drop_shift _ (offset + 8 + c.data.length) 4
      (offset + 12 + c.data.length) (natToBE4 c.crc)
      ((pre'.map rawChunkBytes).flatten
        ++ (rawChunkBytes ⟨IEND_TYPE, iendData, iendCrc⟩ ++ trailing))
      e3 hbe2 (by omega)
    have hIraw : (rawChunkBytes ⟨IEND_TYPE, iendData, iendCrc⟩).length
        = 12 + iendData.length := rawChunkBytes_length _ hI
    have hL : data.length - offset = 12 + c.data.length
        + ((pre'.map rawChunkBytes).flatten.length
          + (12 + iendData.length + trailing.length)) := by
      have h0 := congrArg List.length e0
      simp only [List.length_drop, List.length_append, hbe1, hbe2, hct4,
        hIraw] at h0
      omega
    simp only [iterChunksAux]
    rw [if_pos (show offset + 8 ≤ data.length from by omega)]
    rw [e0, List.take_left' hbe1, beToNat_natToBE4 hclen]
    rw [e1, List.take_left' hct4]
    rw [if_neg (show ¬ (offset + 8 + c.data.length > data.length)
      from by omega)]
    rw [if_neg (show ¬ (offset + 8 + c.data.length + 4 > data.length)
      from by omega)]
    rw [e3, List.take_left' hbe2, beToNat_natToBE4 hccrc]
    rw [if_neg hcne]
    have hrec := ih (offset + 12 + c.data.length) f trailing hwf' e4
      (by omega)
      (by simp only [List.length_cons] at hfuel; omega)
    rw [show offset + 8 + c.data.length + 4 = offset + 12 + c.data.length
      from by omega]
    rw [hrec]
    simp only [List.cons_append, chunkInfosFrom, List.append_eq]

/-- Offset right after a run of chunks starting at `o`. -/
def chunksEndOffset : Nat → List RawChunk → Nat
  | o, [] => o
  | o, c :: cs => chunksEndOffset (o + 12 + c.data.length) cs

theorem chunksEndOffset_eq :
    ∀ (pre : List RawChunk) (o : Nat),
    (∀ c ∈ pre, c.chunkType.length = 4) →
    chunksEndOffset o pre = o + ((pre.map rawChunkBytes).flatten).length := by
  intro pre
  induction pre with
  | nil => intro o _; simp [chunksEndOffset]
  | cons c cs ih =>
    intro o h4
    simp only [chunksEndOffset, List.map_cons, List.flatten_cons,
      List.length_append]
    rw [ih _ (fun x hx => h4 x (List.mem_cons_of_mem _ hx))]
    rw [rawChunkBytes_length c (h4 c (List.mem_cons_self _ _))]
    omega

theorem chunkInfos_find (target : List Nat) :
    ∀ (pre : List RawChunk) (offset : Nat) (tc : RawChunk)
      (rest : List RawChunk),
    (∀ c ∈ pre, c.chunkType ≠ target) → tc.chunkType = target →
    (chunkInfosFrom offset (pre ++ tc :: rest)).find?
        (fun c => c.chunkType == target)
      = some ⟨tc.chunkType, chunksEndOffset offset pre, tc.data.length,
          chunksEndOffset offset pre + 8,
          chunksEndOffset offset pre + 8 + tc.data.length, tc.crc⟩ := by
  intro pre
  induction pre with
  | nil =>
    intro offset tc rest _ htc
    simp only [List.nil_append, chunkInfosFrom, chunksEndOffset]
    rw [List.find?_cons_of_pos _ (by simp [htc])]
  | cons c cs ih =>
    intro offset tc rest hne htc
    simp only [List.cons_append, chunkInfosFrom, chunksEndOffset]
    rw [List.find?_cons_of_neg _ (by
      simp only [beq_iff_eq]
      exact hne c (List.mem_cons_self _ _))]
    exact ih _ tc rest (fun x hx => hne x (List.mem_cons_of_mem _ hx)) htc

theorem chunks_length_le_flatten :
    ∀ (pre : List RawChunk), (∀ c ∈ pre, c.chunkType.length = 4) →
    pre.length ≤ ((pre.map rawChunkBytes).flatten).length := by
  intro pre
  induction pre with
  | nil => simp
  | cons c cs ih =>
    intro h4
    simp only [List.map_cons, List.flatten_cons, List.length_append,
      List.length_cons]
    have hc := rawChunkBytes_length c (h4 c (List.mem_cons_self _ _))
    have hcs := ih (fun x hx => h4 x (List.mem_cons_of_mem _ hx))
    omega

/-- A PNG file made of a signature and raw chunks. -/
def pngOfChunks (cs : List RawChunk) : List Nat :=
  PNG_SIGNATURE ++ (cs.map rawChunkBytes).flatten

theorem iterChunks_spec (pre : List RawChunk) (iendData : List Nat)
    (iendCrc : Nat) (hIlen : iendData.length < 2 ^ 32)
    (hIcrc : iendCrc < 2 ^ 32)
    (hwf : ∀ c ∈ pre, WFChunk c ∧ c.chunkType ≠ IEND_TYPE) :
    iterChunks (pngOfChunks (pre ++ [⟨IEND_TYPE, iendData, iendCrc⟩]))
      = .ok (chunkInfosFrom 8 (pre ++ [⟨IEND_TYPE, iendData, iendCrc⟩])) := by
  have hsig : PNG_SIGNATURE.length = 8 := rfl
  have htake : (pngOfChunks (pre ++ [⟨IEND_TYPE, iendData, iendCrc⟩])).take 8
      = PNG_SIGNATURE := by
    rw [pngOfChunks, List.take_left' hsig]
  have hdrop : (pngOfChunks
      (pre ++ [⟨IEND_TYPE, iendData, iendCrc⟩])).drop 8
      = (pre.map rawChunkBytes).flatten
        ++ (rawChunkBytes ⟨IEND_TYPE, iendData, iendCrc⟩ ++ []) := by
    rw [pngOfChunks, List.drop_left' hsig]
    simp only [List.map_append, List.flatten_append, List.map_cons,
      List.map_nil, List.flatten_cons, List.flatten_nil, List.append_nil]
  have hIraw : (rawChunkBytes ⟨IEND_TYPE, iendData, iendCrc⟩).length
      = 12 + iendData.length := rawChunkBytes_length _ rfl
  have hlen : (pngOfChunks (pre ++ [⟨IEND_TYPE, iendData, iendCrc⟩])).length
      = 8 + ((pre.map rawChunkBytes).flatten.length + (12 + iendData.length)) := by
    simp only [pngOfChunks, List.length_append, hsig, List.map_append,
      List.flatten_append, List.map_cons, List.map_nil, List.flatten_cons,
      List.flatten_nil, List.append_nil, hIraw]
  rw [iterChunks, if_pos htake]
  exact iterChunksAux_spec _ iendData iendCrc hIlen hIcrc pre 8 _ [] hwf
    (by rw [hdrop]) (by omega)
    (by
      have h := chunks_length_le_flatten pre
        (fun x hx => (hwf x hx).1.1)
      omega)

theorem extractPng_structured (pre : List RawChunk) (iendData : List Nat)
    (iendCrc : Nat) (block : List Nat) (storedCrc : Nat)
    (hIlen : iendData.length < 2 ^ 32) (hIcrc : iendCrc < 2 ^ 32)
    (hblen : block.length < 2 ^ 32) (hscrc : storedCrc < 2 ^ 32)
    (hwf : ∀ c ∈ pre, WFChunk c ∧ c.chunkType ≠ IEND_TYPE)
    (hpre : ∀ c ∈ pre, c.chunkType ≠ DEFAULT_CHUNK_TYPE) :
    extractPayloadFromPngChunk
        (pngOfChunks (pre ++ [⟨DEFAULT_CHUNK_TYPE, block, storedCrc⟩,
          ⟨IEND_TYPE, iendData, iendCrc⟩])) DEFAULT_CHUNK_TYPE
      = if crc32 (DEFAULT_CHUNK_TYPE ++ block) ≠ storedCrc then
          .error .checksumMismatch
        else if block.length < 2 then .error .corruptPayload
        else if 2 + beToNat (block.take 2) > block.length then
          .error .corruptPayload
        else .ok ((block.drop 2).take (beToNat (block.take 2)),
            block.drop (2 + beToNat (block.take 2))) := by
  have hassoc : pre ++ [(⟨DEFAULT_CHUNK_TYPE, block, storedCrc⟩ : RawChunk),
      ⟨IEND_TYPE, iendData, iendCrc⟩]
      = (pre ++ [⟨DEFAULT_CHUNK_TYPE, block, storedCrc⟩])
        ++ [⟨IEND_TYPE, iendData, iendCrc⟩] := by simp
  have hwf2 : ∀ c ∈ pre ++ [(⟨DEFAULT_CHUNK_TYPE, block, storedCrc⟩ : RawChunk)],
      WFChunk c ∧ c.chunkType ≠ IEND_TYPE := by
    intro c hc
    rcases List.mem_append.mp hc with h | h
    · exact hwf c h
    · simp only [List.mem_singleton] at h
      subst h
      exact ⟨⟨rfl, hblen, hscrc⟩,
        show DEFAULT_CHUNK_TYPE ≠ IEND_TYPE from by decide⟩
  have hiter := iterChunks_spec (pre ++ [⟨DEFAULT_CHUNK_TYPE, block, storedCrc⟩])
    iendData iendCrc hIlen hIcrc hwf2
  rw [← hassoc] at hiter
  have hfind := chunkInfos_find DEFAULT_CHUNK_TYPE pre 8
    ⟨DEFAULT_CHUNK_TYPE, block, storedCrc⟩ [⟨IEND_TYPE, iendData, iendCrc⟩]
    hpre rfl
  have hvn : (¬ validateChunkType DEFAULT_CHUNK_TYPE = true) ↔ False := by
    decide
  simp only [extractPayloadFromPngChunk, findChunk, hiter, hfind, hvn,
    if_false]
  have hE : chunksEndOffset 8 pre
      = 8 + (pre.map rawChunkBytes).flatten.length :=
    chunksEndOffset_eq pre 8 (fun c hc => (hwf c hc).1.1)
  have hsig : PNG_SIGNATURE.length = 8 := rfl
  have hpref : (PNG_SIGNATURE ++ (pre.map rawChunkBytes).flatten).length
      = chunksEndOffset 8 pre := by
    simp only [List.length_append, hsig, hE]
  have hsplit : pngOfChunks (pre ++ [⟨DEFAULT_CHUNK_TYPE, block, storedCrc⟩,
      ⟨IEND_TYPE, iendData, iendCrc⟩])
      = (PNG_SIGNATURE ++ (pre.map rawChunkBytes).flatten)
        ++ (natToBE4 block.length ++ (DEFAULT_CHUNK_TYPE ++ (block
          ++ (natToBE4 storedCrc
            ++ rawChunkBytes ⟨IEND_TYPE, iendData, iendCrc⟩)))) := by
    simp only [pngOfChunks, List.map_append, List.flatten_append,
      List.map_cons, List.map_nil, List.flatten_cons, List.flatten_nil,
      List.append_nil, rawChunkBytes, List.append_assoc]
  have d0 : (pngOfChunks (pre ++ [⟨DEFAULT_CHUNK_TYPE, block, storedCrc⟩,
      ⟨IEND_TYPE, iendData, iendCrc⟩])).drop (chunksEndOffset 8 pre)
      = natToBE4 block.length ++ (DEFAULT_CHUNK_TYPE ++ (block
        ++ (natToBE4 storedCrc
          ++ rawChunkBytes ⟨IEND_TYPE, iendData, iendCrc⟩))) := by
    rw [hsplit, List.drop_left' hpref]
  have d1 := drop_shift _ (chunksEndOffset 8 pre) 4 (chunksEndOffset 8 pre + 4)
    (natToBE4 block.length)
    (DEFAULT_CHUNK_TYPE ++ (block ++ (natToBE4 storedCrc
      ++ rawChunkBytes ⟨IEND_TYPE, iendData, iendCrc⟩))) d0 rfl rfl
  have d2 := drop_shift _ (chunksEndOffset 8 pre + 4) 4
    (chunksEndOffset 8 pre + 8) DEFAULT_CHUNK_TYPE
    (block ++ (natToBE4 storedCrc
      ++ rawChunkBytes ⟨IEND_TYPE, iendData, iendCrc⟩)) d1 rfl rfl
  simp only [show chunksEndOffset 8 pre + 8 + block.length
      - (chunksEndOffset 8 pre + 8) = block.length from by omega]
  simp only [d2, List.take_left']

theorem embedPng_spec (pre : List RawChunk) (iendData : List Nat)
    (iendCrc : Nat) (payload filename : List Nat)
    (hIlen : iendData.length < 2 ^ 32) (hIcrc : iendCrc < 2 ^ 32)
    (hwf : ∀ c ∈ pre, WFChunk c ∧ c.chunkType ≠ IEND_TYPE)
    (hnlen : ¬ filename.length > 0xFFFF) :
    embedFileIntoPngChunk
        (pngOfChunks (pre ++ [⟨IEND_TYPE, iendData, iendCrc⟩]))
        payload filename DEFAULT_CHUNK_TYPE
      = .ok (pngOfChunks (pre
          ++ [⟨DEFAULT_CHUNK_TYPE,
                natToBE2 filename.length ++ (filename ++ payload),
                crc32 (DEFAULT_CHUNK_TYPE
                  ++ (natToBE2 filename.length ++ (filename ++ payload)))⟩,
              ⟨IEND_TYPE, iendData, iendCrc⟩])) := by
  have hiter := iterChunks_spec pre iendData iendCrc hIlen hIcrc hwf
  have hfind := chunkInfos_find IEND_TYPE pre 8
    ⟨IEND_TYPE, iendData, iendCrc⟩ [] (fun c hc => (hwf c hc).2) rfl
  have hvn : (¬ validateChunkType DEFAULT_CHUNK_TYPE = true) ↔ False := by
    decide
  simp only [embedFileIntoPngChunk, findChunk, hiter, hfind, hvn, if_false]
  rw [if_neg hnlen]
  have hE : chunksEndOffset 8 pre
      = 8 + (pre.map rawChunkBytes).flatten.length :=
    chunksEndOffset_eq pre 8 (fun c hc => (hwf c hc).1.1)
  have hsig : PNG_SIGNATURE.length = 8 := rfl
  have hpref : (PNG_SIGNATURE ++ (pre.map rawChunkBytes).flatten).length
      = chunksEndOffset 8 pre := by
    simp only [List.length_append, hsig, hE]
  have hsplit : pngOfChunks (pre ++ [⟨IEND_TYPE, iendData, iendCrc⟩])
      = (PNG_SIGNATURE ++ (pre.map rawChunkBytes).flatten)
        ++ rawChunkBytes ⟨IEND_TYPE, iendData, iendCrc⟩ := by
    simp only [pngOfChunks, List.map_append, List.flatten_append,
      List.map_cons, List.map_nil, List.flatten_cons, List.flatten_nil,
      List.append_nil, List.append_assoc]
  rw [hsplit, List.take_left' hpref, List.drop_left' hpref]
  simp only [pngOfChunks, buildChunk, rawChunkBytes, List.map_append,
    List.map_cons, List.map_nil, List.flatten_append, List.flatten_cons,
    List.flatten_nil, List.append_nil, List.append_assoc]

theorem getD_drop_eq (l : List Nat) (n i : Nat) :
    (l.drop n).getD i 0 = l.getD (n + i) 0 := by
  simp only [List.getD_eq_getElem?_getD, List.getElem?_drop]

theorem extractPng_ok (pre : List RawChunk) (iendData : List Nat)
    (iendCrc : Nat) (payload filename : List Nat)
    (hIlen : iendData.length < 2 ^ 32) (hIcrc : iendCrc < 2 ^ 32)
    (hwf : ∀ c ∈ pre, WFChunk c ∧ c.chunkType ≠ IEND_TYPE)
    (hpre : ∀ c ∈ pre, c.chunkType ≠ DEFAULT_CHUNK_TYPE)
    (hpl256 : ∀ x ∈ payload, x < 256) (hfn256 : ∀ x ∈ filename, x < 256)
    (hnlen : filename.length < 2 ^ 16)
    (hblk : 2 + filename.length + payload.length < 2 ^ 32) :
    extractPayloadFromPngChunk (pngOfChunks (pre
        ++ [⟨DEFAULT_CHUNK_TYPE,
              natToBE2 filename.length ++ (filename ++ payload),
              crc32 (DEFAULT_CHUNK_TYPE
                ++ (natToBE2 filename.length ++ (filename ++ payload)))⟩,
            ⟨IEND_TYPE, iendData, iendCrc⟩])) DEFAULT_CHUNK_TYPE
      = .ok (filename, payload) := by
  have hb2 : (natToBE2 filename.length).length = 2 := rfl
  have hblock : (natToBE2 filename.length ++ (filename ++ payload)).length
      = 2 + filename.length + payload.length := by
    simp only [List.length_append, hb2]
    omega
  have hbytes : ∀ x ∈ DEFAULT_CHUNK_TYPE
      ++ (natToBE2 filename.length ++ (filename ++ payload)), x < 256 := by
    intro x hx
    rcases List.mem_append.mp hx with h | h
    · simp only [DEFAULT_CHUNK_TYPE, List.mem_cons, List.not_mem_nil,
        or_false] at h
      rcases h with h | h | h | h <;> omega
    rcases List.mem_append.mp h with h | h
    · exact natToBE2_bytes_lt _ x h
    rcases List.mem_append.mp h with h | h
    · exact hfn256 x h
    · exact hpl256 x h
  have hscrc : crc32 (DEFAULT_CHUNK_TYPE
      ++ (natToBE2 filename.length ++ (filename ++ payload))) < 2 ^ 32 :=
    crc32_lt _ hbytes
  rw [extractPng_structured pre iendData iendCrc _ _ hIlen hIcrc
    (by omega) hscrc hwf hpre]
  rw [if_neg (fun h => h rfl)]
  rw [if_neg (by omega)]
  rw [List.take_left' hb2, beToNat_natToBE2 hnlen]
  rw [if_neg (by omega)]
  rw [List.drop_left' hb2, List.take_left filename payload]
  rw [show 2 + filename.length = (natToBE2 filename.length
      ++ filename).length from by
    simp only [List.length_append, hb2]]
  rw [← List.append_assoc, List.drop_left]

theorem extractPng_flipped (pre : List RawChunk) (iendData : List Nat)
    (iendCrc : Nat) (payload filename : List Nat) (j b2 : Nat)
    (hIlen : iendData.length < 2 ^ 32) (hIcrc : iendCrc < 2 ^ 32)
    (hwf : ∀ c ∈ pre, WFChunk c ∧ c.chunkType ≠ IEND_TYPE)
    (hpre : ∀ c ∈ pre, c.chunkType ≠ DEFAULT_CHUNK_TYPE)
    (hpl256 : ∀ x ∈ payload, x < 256) (hfn256 : ∀ x ∈ filename, x < 256)
    (hnlen : filename.length < 2 ^ 16)
    (hblk : 2 + filename.length + payload.length < 2 ^ 32)
    (hj : j < payload.length) (hb2 : b2 < 256)
    (hne : b2 ≠ payload.getD j 0) :
    extractPayloadFromPngChunk (pngOfChunks (pre
        ++ [⟨DEFAULT_CHUNK_TYPE,
              natToBE2 filename.length ++ (filename ++ payload.set j b2),
              crc32 (DEFAULT_CHUNK_TYPE
                ++ (natToBE2 filename.length ++ (filename ++ payload)))⟩,
            ⟨IEND_TYPE, iendData, iendCrc⟩])) DEFAULT_CHUNK_TYPE
      = .error .checksumMismatch := by
  have hD : DEFAULT_CHUNK_TYPE.length = 4 := rfl
  have hb2l : (natToBE2 filename.length).length = 2 := rfl
  have hbytes : ∀ x ∈ DEFAULT_CHUNK_TYPE
      ++ (natToBE2 filename.length ++ (filename ++ payload)), x < 256 := by
    intro x hx
    rcases List.mem_append.mp hx with h | h
    · simp only [DEFAULT_CHUNK_TYPE, List.mem_cons, List.not_mem_nil,
        or_false] at h
      rcases h with h | h | h | h <;> omega
    rcases List.mem_append.mp h with h | h
    · exact natToBE2_bytes_lt _ x h
    rcases List.mem_append.mp h with h | h
    · exact hfn256 x h
    · exact hpl256 x h
  have hscrc : crc32 (DEFAULT_CHUNK_TYPE
      ++ (natToBE2 filename.length ++ (filename ++ payload))) < 2 ^ 32 :=
    crc32_lt _ hbytes
  have hsetlen : (payload.set j b2).length = payload.length :=
    List.length_set _ _ _
  have hblen' : (natToBE2 filename.length
      ++ (filename ++ payload.set j b2)).length < 2 ^ 32 := by
    simp only [List.length_append, hb2l, hsetlen]
    omega
  rw [extractPng_structured pre iendData iendCrc _ _ hIlen hIcrc hblen'
    hscrc hwf hpre]
  have hset : (DEFAULT_CHUNK_TYPE ++ (natToBE2 filename.length
      ++ (filename ++ payload))).set (6 + filename.length + j) b2
      = DEFAULT_CHUNK_TYPE ++ (natToBE2 filename.length
        ++ (filename ++ payload.set j b2)) := by
    rw [List.set_append_right _ _ (by rw [hD]; omega)]
    rw [show 6 + filename.length + j - DEFAULT_CHUNK_TYPE.length
      = 2 + filename.length + j from by rw [hD]; omega]
    rw [List.set_append_right _ _ (by rw [hb2l]; omega)]
    rw [show 2 + filename.length + j - (natToBE2 filename.length).length
      = filename.length + j from by rw [hb2l]; omega]
    rw [List.set_append_right _ _ (by omega)]
    rw [show filename.length + j - filename.length = j from by omega]
  have hgd : (DEFAULT_CHUNK_TYPE ++ (natToBE2 filename.length
      ++ (filename ++ payload))).getD (6 + filename.length + j) 0
      = payload.getD j 0 := by
    have g0 : (DEFAULT_CHUNK_TYPE ++ (natToBE2 filename.length
        ++ (filename ++ payload))).drop 0
        = DEFAULT_CHUNK_TYPE ++ (natToBE2 filename.length
          ++ (filename ++ payload)) := List.drop_zero _
    have g1 := drop_shift _ 0 4 4 DEFAULT_CHUNK_TYPE
      (natToBE2 filename.length ++ (filename ++ payload)) g0 hD rfl
    have g2 := drop_shift _ 4 2 6 (natToBE2 filename.length)
      (filename ++ payload) g1 hb2l rfl
    have g3 := drop_shift _ 6 filename.length (6 + filename.length)
      filename payload g2 rfl rfl
    rw [← getD_drop_eq _ (6 + filename.length) j, g3]
  have hi : 6 + filename.length + j < (DEFAULT_CHUNK_TYPE
      ++ (natToBE2 filename.length ++ (filename ++ payload))).length := by
    simp only [List.length_append, hD, hb2l]
    omega
  have hcrcne : crc32 (DEFAULT_CHUNK_TYPE ++ (natToBE2 filename.length
      ++ (filename ++ payload.set j b2)))
      ≠ crc32 (DEFAULT_CHUNK_TYPE ++ (natToBE2 filename.length
        ++ (filename ++ payload))) := by
    rw [← hset]
    exact crc32_set_ne _ (6 + filename.length + j) b2 hi hbytes hb2
      (by rw [hgd]; exact hne)
  rw [if_pos hcrcne]

theorem pngStego_set (pre : List RawChunk) (iendData : List Nat)
    (iendCrc : Nat) (payload filename : List Nat) (j b2 : Nat)
    (hj : j < payload.length) :
    (pngOfChunks (pre ++ [⟨DEFAULT_CHUNK_TYPE,
        natToBE2 filename.length ++ (filename ++ payload),
        crc32 (DEFAULT_CHUNK_TYPE ++ (natToBE2 filename.length
          ++ (filename ++ payload)))⟩,
      ⟨IEND_TYPE, iendData, iendCrc⟩])).set
        (8 + (pre.map rawChunkBytes).flatten.length + 10 + filename.length
          + j) b2
      = pngOfChunks (pre ++ [⟨DEFAULT_CHUNK_TYPE,
          natToBE2 filename.length ++ (filename ++ payload.set j b2),
          crc32 (DEFAULT_CHUNK_TYPE ++ (natToBE2 filename.length
            ++ (filename ++ payload)))⟩,
        ⟨IEND_TYPE, iendData, iendCrc⟩]) := by
  have hsig : PNG_SIGNATURE.length = 8 := rfl
  have hD : DEFAULT_CHUNK_TYPE.length = 4 := rfl
  have hb2l : (natToBE2 filename.length).length = 2 := rfl
  simp only [pngOfChunks, rawChunkBytes, List.map_append, List.map_cons,
    List.map_nil, List.flatten_append, List.flatten_cons, List.flatten_nil,
    List.append_nil, List.append_assoc, List.length_append,
    List.length_set, hb2l]
  rw [List.set_append_right _ _ (by rw [hsig]; omega)]
  rw [show 8 + (pre.map rawChunkBytes).flatten.length + 10 + filename.length
      + j - PNG_SIGNATURE.length
      = (pre.map rawChunkBytes).flatten.length + 10 + filename.length + j
      from by rw [hsig]; omega]
  rw [List.set_append_right _ _ (by omega)]
  rw [show (pre.map rawChunkBytes).flatten.length + 10 + filename.length + j
      - (pre.map rawChunkBytes).flatten.length
      = 10 + filename.length + j from by omega]
  rw [List.set_append_right _ _ (show (natToBE4
      (2 + (filename.length + payload.length))).length
      ≤ 10 + filename.length + j from by
    have h4 : (natToBE4 (2 + (filename.length + payload.length))).length = 4 :=
      rfl
    omega)]
  rw [show 10 + filename.length + j - (natToBE4
      (2 + (filename.length + payload.length))).length
      = 6 + filename.length + j from by
    have h4 : (natToBE4 (2 + (filename.length + payload.length))).length = 4 :=
      rfl
    omega]
  rw [List.set_append_right _ _ (by rw [hD]; omega)]
  rw [show 6 + filename.length + j - DEFAULT_CHUNK_TYPE.length
      = 2 + filename.length + j from by rw [hD]; omega]
  rw [List.set_append_right _ _ (by rw [hb2l]; omega)]
  rw [show 2 + filename.length + j - (natToBE2 filename.length).length
      = filename.length + j from by rw [hb2l]; omega]
  rw [List.set_append_right _ _ (by omega)]
  rw [show filename.length + j - filename.length = j from by omega]
  rw [List.set_append_left _ _ hj]

/-! ## Claim C5 -/

set_option maxRecDepth 8000 in
/-- C5 counterexample: tail-append extraction is not correct for every
payload.  `_parse_trailer` locates the trailer with `rfind` on the
append marker, so a payload that itself contains `STEGOSIGHT::APPEND::V1`
makes `rfind` land inside the payload: appending the marker bytes as the
payload over a 1-byte cover yields a stego file on which
`has_appended_payload` is false and extraction raises instead of
returning the payload. -/
theorem C5_counterexample :
    hasAppendedPayload (appendPayloadToFile [99] APPEND_MARKER []) = false := by
  decide

/-- C5 (amended): provided `rfind` locates the real trailer (the marker's
last occurrence is the one written at the end of the cover — true in
particular whenever the payload does not contain the marker), tail-append
extraction returns the exact payload with `has_appended_payload = true`,
and flipping any single payload byte of the stego file makes extraction
raise `ChecksumMismatchError`; likewise custom-chunk embedding into a
well-formed PNG (signature, 4-byte-typed chunks ending in `IEND`, no
existing `stGO` chunk) followed by extraction returns the exact filename
and payload, and flipping any single payload byte inside the inserted
chunk makes extraction raise `ChecksumMismatchError`. -/
theorem C5_amended :
    (∀ (cover payload filename : List Nat),
      (∀ x ∈ payload, x < 256) → payload.length < 2 ^ 64 →
      filename.length < 2 ^ 16 →
      listRfind (appendPayloadToFile cover payload filename) APPEND_MARKER
        = some cover.length →
      parseTrailer (appendPayloadToFile cover payload filename)
        = .ok ⟨payload, filename, crc32 payload, 1, payload.length⟩ ∧
      hasAppendedPayload (appendPayloadToFile cover payload filename)
        = true) ∧
    (∀ (cover payload filename : List Nat) (i b' : Nat),
      i < payload.length → (∀ x ∈ payload, x < 256) → b' < 256 →
      b' ≠ payload.getD i 0 → payload.length < 2 ^ 64 →
      filename.length < 2 ^ 16 →
      listRfind ((appendPayloadToFile cover payload filename).set
        (cover.length + 37 + filename.length + i) b') APPEND_MARKER
        = some cover.length →
      parseTrailer ((appendPayloadToFile cover payload filename).set
        (cover.length + 37 + filename.length + i) b')
        = .error .checksumMismatch) ∧
    (∀ (pre : List RawChunk) (iendData payload filename : List Nat)
      (iendCrc : Nat),
      iendData.length < 2 ^ 32 → iendCrc < 2 ^ 32 →
      (∀ c ∈ pre, WFChunk c ∧ c.chunkType ≠ IEND_TYPE) →
      (∀ c ∈ pre, c.chunkType ≠ DEFAULT_CHUNK_TYPE) →
      (∀ x ∈ payload, x < 256) → (∀ x ∈ filename, x < 256) →
      filename.length < 2 ^ 16 →
      2 + filename.length + payload.length < 2 ^ 32 →
      embedFileIntoPngChunk
          (pngOfChunks (pre ++ [⟨IEND_TYPE, iendData, iendCrc⟩]))
          payload filename DEFAULT_CHUNK_TYPE
        = .ok (pngOfChunks (pre ++ [⟨DEFAULT_CHUNK_TYPE,
            natToBE2 filename.length ++ (filename ++ payload),
            crc32 (DEFAULT_CHUNK_TYPE ++ (natToBE2 filename.length
              ++ (filename ++ payload)))⟩,
          ⟨IEND_TYPE, iendData, iendCrc⟩])) ∧
      extractPayloadFromPngChunk (pngOfChunks (pre
          ++ [⟨DEFAULT_CHUNK_TYPE,
                natToBE2 filename.length ++ (filename ++ payload),
                crc32 (DEFAULT_CHUNK_TYPE ++ (natToBE2 filename.length
                  ++ (filename ++ payload)))⟩,
              ⟨IEND_TYPE, iendData, iendCrc⟩])) DEFAULT_CHUNK_TYPE
        = .ok (filename, payload) ∧
      (∀ (j b2 : Nat), j < payload.length → b2 < 256 →
        b2 ≠ payload.getD j 0 →
        extractPayloadFromPngChunk ((pngOfChunks (pre
            ++ [⟨DEFAULT_CHUNK_TYPE,
                  natToBE2 filename.length ++ (filename ++ payload),
                  crc32 (DEFAULT_CHUNK_TYPE ++ (natToBE2 filename.length
                    ++ (filename ++ payload)))⟩,
                ⟨IEND_TYPE, iendData, iendCrc⟩])).set
            (8 + (pre.map rawChunkBytes).flatten.length + 10
              + filename.length + j) b2) DEFAULT_CHUNK_TYPE
          = .error .checksumMismatch)) := by
  refine ⟨?_, ?_, ?_⟩
  · intro cover payload filename hpl256 hplen hnlen hrfind
    exact parseTrailer_appended cover payload filename hpl256 hplen hnlen
      hrfind
  · intro cover payload filename i b' hi hpl256 hb' hne hplen hnlen hrfind
    exact parseTrailer_flipped cover payload filename i b' hi hpl256 hb'
      hne hplen hnlen hrfind
  · intro pre iendData payload filename iendCrc hIlen hIcrc hwf hpreT
      hpl256 hfn256 hnlen hblk
    refine ⟨embedPng_spec pre iendData iendCrc payload filename hIlen hIcrc
      hwf (by omega),
      extractPng_ok pre iendData iendCrc payload filename hIlen hIcrc hwf
        hpreT hpl256 hfn256 hnlen hblk, ?_⟩
    intro j b2 hj hb2 hne
    rw [pngStego_set pre iendData iendCrc payload filename j b2 hj]
    exact extractPng_flipped pre iendData iendCrc payload filename j b2
      hIlen hIcrc hwf hpreT hpl256 hfn256 hnlen hblk hj hb2 hne

/-- C5 witness: the amended tamper-detection property at concrete inputs —
payload `[1, 2]` appended over a 1-byte cover parses back intact and
raises after flipping byte 0, and payload `[5]` with filename `"a"`
round-trips through the custom `stGO` chunk of a minimal PNG. -/
theorem C5_witness :
    (parseTrailer (appendPayloadToFile [0] [1, 2] [])
      = .ok ⟨[1, 2], [], crc32 [1, 2], 1, 2⟩) ∧
    (parseTrailer ((appendPayloadToFile [0] [1, 2] []).set 38 0)
      = .error .checksumMismatch) ∧
    (extractPayloadFromPngChunk (pngOfChunks ([]
        ++ [⟨DEFAULT_CHUNK_TYPE, natToBE2 1 ++ ([97] ++ [5]),
              crc32 (DEFAULT_CHUNK_TYPE ++ (natToBE2 1 ++ ([97] ++ [5])))⟩,
            ⟨IEND_TYPE, [], 0⟩])) DEFAULT_CHUNK_TYPE = .ok ([97], [5])) :=
  ⟨(C5_amended.1 [0] [1, 2] [] (by decide) (by decide) (by decide)
      (by decide)).1,
   C5_amended.2.1 [0] [1, 2] [] 0 0 (by decide) (by decide) (by decide)
      (by decide) (by decide) (by decide) (by decide),
   (C5_amended.2.2 [] [] [5] [97] 0 (by decide) (by decide) (by simp)
      (by simp) (by decide) (by decide) (by decide) (by decide)).2.1⟩
